import Mathlib

/-
Verification of the cryptid cryptogram solver (src/main.rs).

The program decodes monoalphabetic substitution ciphers.  We embed the core
engine shallowly: Rust strings become lists of byte values (`List Nat`),
Rust `FxHashMap<u8, u8>` mappings become association lists with no duplicate
keys (`List (Nat × Nat)`), and Rust `FxHashSet<&str>` word sets become
deduplicated lists.  Hash-set iteration order, which the engine does not
specify, is modelled by an explicit enumeration-order parameter where it can
influence the emitted order of solutions.
-/

namespace Cryptid

/-- A word or token: the byte sequence of a Rust `&str`. -/
abbrev Word := List Nat

/-- A partial substitution mapping, as in `FxHashMap<u8, u8>`: an association
list from encrypted byte to decrypted byte.  Mappings built by the program
always have pairwise distinct keys. -/
abbrev Mapping := List (Nat × Nat)

/-- Lookup in an association list, as `HashMap::get`. -/
def mlookup : Mapping → Nat → Option Nat
  | [], _ => none
  | (k, v) :: m, u => if u = k then some v else mlookup m u

/-- Insert into an association list, as `HashMap::insert`: replaces the
binding if the key is present, otherwise appends a fresh binding. -/
def minsert : Mapping → Nat → Nat → Mapping
  | [], k, v => [(k, v)]
  | (k0, v0) :: m, k, v =>
    if k = k0 then (k0, v) :: m else (k0, v0) :: minsert m k v

/-- Insert only when the key is absent, as `HashMap::entry(k).or_insert(v)`. -/
def morInsert (m : Mapping) (k v : Nat) : Mapping :=
  match mlookup m k with
  | some _ => m
  | none => minsert m k v

/-- The keys of a mapping. -/
def mkeys (m : Mapping) : List Nat := m.map Prod.fst

/-- The values of a mapping. -/
def mvalues (m : Mapping) : List Nat := m.map Prod.snd

/-- Enumeration with indices, as Rust `iter().enumerate()` starting at `i`. -/
def enumFrom {α : Type} : Nat → List α → List (Nat × α)
  | _, [] => []
  | i, a :: as => (i, a) :: enumFrom (i + 1) as

/-- Loop of `Pattern::from_str`: scan bytes left to right keeping the map
from byte to first-seen symbol id (`symbol_map`) and the next unused id
(`next_symbol`), emitting one id per byte. -/
def patternGo : Word → Nat → Mapping → List Nat
  | [], _, _ => []
  | u :: us, next, symbolMap =>
    match mlookup symbolMap u with
    | some id => id :: patternGo us next symbolMap
    | none => next :: patternGo us (next + 1) (minsert symbolMap u next)

/-- `Pattern::from_str`: the canonical pattern of a word, ids assigned in
first-occurrence order. -/
def patternFromStr (s : Word) : List Nat := patternGo s 0 []

/-- The solver, holding the dictionary from which both index structures
(`words_by_pattern` and `words_by_character_and_index`) are built.  The Rust
hash maps are finite maps built once from the word list by
`Solver::from_dictionary`; we embed them extensionally by the bucket contents
they associate to each query. -/
structure Solver where
  dict : List Word

/-- `Solver::words_by_pattern`: the set of dictionary words sharing the
query word's pattern, empty when the pattern bucket is absent.  The Rust
value is a `FxHashSet`, so duplicate dictionary entries collapse. -/
def wordsByPattern (s : Solver) (w : Word) : List Word :=
  (s.dict.filter (fun d => decide (patternFromStr d = patternFromStr w))).dedup

/-- `Solver::words_by_character_and_index`: the bucket of dictionary words
having byte `u` at position `idx`, or `none` when no such word exists (the
nested hash-map lookup misses).  Buckets are created only when a word is
inserted, so a present bucket is never empty. -/
def wordsByCharAndIndex (s : Solver) (u : Nat) (idx : Nat) : Option (List Word) :=
  match (s.dict.filter (fun d => decide (d.get? idx = some u))).dedup with
  | [] => none
  | b => some b

/-- Loop of `Solver::find_candidate_matches`: for every enumerated position
whose encrypted byte has an image under the mapping, retain only candidates
present in that position's bucket — skipping positions whose bucket is
absent, exactly as the `if let Some(other_candidates)` in the source does. -/
def retainLoop (s : Solver) (m : Mapping) : List (Nat × Nat) → List Word → List Word
  | [], cands => cands
  | (idx, u) :: rest, cands =>
    match mlookup m u with
    | none => retainLoop s m rest cands
    | some mc =>
      match wordsByCharAndIndex s mc idx with
      | none => retainLoop s m rest cands
      | some others => retainLoop s m rest (cands.filter (fun x => decide (x ∈ others)))

/-- `Solver::find_candidate_matches`: pattern-bucket lookup then positional
filtering under the current mapping. -/
def findCandidateMatches (s : Solver) (w : Word) (m : Mapping) : List Word :=
  retainLoop s m (enumFrom 0 w) (wordsByPattern s w)

/-- First phase of `Solver::try_extend_mapping`: walk the zipped
(encrypted byte, decrypted byte) pairs, rejecting a pair that contradicts
either the tentative mapping built so far or the existing mapping, and
inserting it otherwise. -/
def extendLoop (m : Mapping) : List (Nat × Nat) → Mapping → Option Mapping
  | [], acc => some acc
  | (ue, ud) :: rest, acc =>
    match mlookup acc ue with
    | some v =>
      if v ≠ ud then none
      else
        match mlookup m ue with
        | some v2 => if v2 ≠ ud then none else extendLoop m rest (minsert acc ue ud)
        | none => extendLoop m rest (minsert acc ue ud)
    | none =>
      match mlookup m ue with
      | some v2 => if v2 ≠ ud then none else extendLoop m rest (minsert acc ue ud)
      | none => extendLoop m rest (minsert acc ue ud)

/-- Second phase of `Solver::try_extend_mapping`: copy every entry of the
existing mapping into the new one unless its key is already present
(`entry(k).or_insert(v)`). -/
def mergeOld (newM : Mapping) (m : Mapping) : Mapping :=
  m.foldl (fun acc p => morInsert acc p.1 p.2) newM

/-- Final check of `Solver::try_extend_mapping`: the set of values must be
as large as the map, i.e. no two keys share a value. -/
def valuesInjectiveCheck (m : Mapping) : Bool :=
  decide ((mvalues m).dedup.length = m.length)

/-- `Solver::try_extend_mapping`: attempt to extend `m` so that
`encryptedWord` decodes to `word`. -/
def tryExtendMapping (word encryptedWord : Word) (m : Mapping) : Option Mapping :=
  match extendLoop m (encryptedWord.zip word) [] with
  | none => none
  | some newM =>
    if valuesInjectiveCheck (mergeOld newM m) then some (mergeOld newM m) else none

/-- Candidate count of a token under a mapping, the sort key
`find_candidate_matches(word, mapping).len()` used in `Solver::guess`. -/
def countKey (s : Solver) (m : Mapping) (w : Word) : Nat :=
  (findCandidateMatches s w m).length

/-- Sort order of `Solver::guess`: ascending in `Reverse(count)`, i.e.
descending candidate count, so that `pop` removes a minimal-count token. -/
def descRel (s : Solver) (m : Mapping) : Word → Word → Prop :=
  fun a b => countKey s m b ≤ countKey s m a

instance descRelDecidable (s : Solver) (m : Mapping) : DecidableRel (descRel s m) :=
  fun _ _ => Nat.decLe _ _

instance descRelTotal (s : Solver) (m : Mapping) : IsTotal Word (descRel s m) :=
  ⟨fun a b => (Nat.le_total (countKey s m a) (countKey s m b)).symm⟩

instance descRelTrans (s : Solver) (m : Mapping) : IsTrans Word (descRel s m) :=
  ⟨fun _ _ _ hab hbc => Nat.le_trans hbc hab⟩

/-- The stable sort of `Solver::guess` (Rust `sort_by_key` is stable; a
stable sort under a total preorder has a unique result, here realized by
insertion sort). -/
def sortTokens (s : Solver) (m : Mapping) (tokens : List Word) : List Word :=
  List.insertionSort (descRel s m) tokens

/-- `Solver::guess`, with two explicit parameters the Rust code leaves to
the runtime: `fuel` bounds the recursion depth (the Rust recursion is plain;
`solve` passes the token count, which suffices — see the termination
theorem), and `o` is the unspecified hash-map iteration order in which the
successful per-candidate extensions of `candidate_mappings` are consumed by
`flat_map`.  Each step stably sorts the remaining tokens by descending
candidate count, pops the last (a minimal-count token), tries every
candidate extension, and recurses with the popped list. -/
def guessO (s : Solver) (o : (α : Type) → List α → List α) :
    Nat → Mapping → List Word → List Mapping
  | 0, m, tokens =>
    match (sortTokens s m tokens).getLast? with
    | none => [m]
    | some _ => []
  | fuel + 1, m, tokens =>
    match (sortTokens s m tokens).getLast? with
    | none => [m]
    | some chosen =>
      (o Mapping ((findCandidateMatches s chosen m).filterMap
          (fun w => tryExtendMapping w chosen m))).flatMap
        (fun m2 => guessO s o fuel m2 (sortTokens s m tokens).dropLast)

/-- The identity enumeration order. -/
def idOrder : (α : Type) → List α → List α := fun _ l => l

/-- ASCII whitespace recognized by Rust `char::is_whitespace` (the phrase is
guaranteed ASCII by `Phrase::from_str`). -/
def isWhitespaceB (u : Nat) : Bool :=
  decide (u = 32) || decide (u = 9) || decide (u = 10) ||
    decide (u = 11) || decide (u = 12) || decide (u = 13)

/-- Accumulator loop for `str::split_whitespace` over bytes: splits at
whitespace bytes and drops empty fragments. -/
def splitWSGo : List Nat → Word → List Word
  | [], [] => []
  | [], acc => [acc.reverse]
  | u :: us, acc =>
    if isWhitespaceB u then
      match acc with
      | [] => splitWSGo us []
      | _ => acc.reverse :: splitWSGo us []
    else splitWSGo us (u :: acc)

/-- `str::split_whitespace` collected to a list of tokens. -/
def splitWhitespace (p : List Nat) : List Word :=
  splitWSGo p []

/-- Token collection of `Solver::solve`: the phrase's whitespace-separated
tokens with duplicates removed (the Rust code collects them into a
`FxHashSet` and back into a `Vec`). -/
def solveTokens (phrase : List Nat) : List Word :=
  (splitWhitespace phrase).dedup

/-- Rendering of one mapping over the phrase in `Solver::solve`: every byte
is replaced by its image when mapped and passed through unchanged
otherwise. -/
def renderMapping (m : Mapping) (phrase : List Nat) : List Nat :=
  phrase.map (fun u => (mlookup m u).getD u)

/-- The complete mappings found by a solve call, before rendering. -/
def solveMappingsO (s : Solver) (o : (α : Type) → List α → List α)
    (phrase : List Nat) : List Mapping :=
  guessO s o (solveTokens phrase).length [] (solveTokens phrase)

/-- `Solver::solve` with an explicit enumeration order: dedup the tokens,
search for complete mappings, render each over the original phrase. -/
def solveO (s : Solver) (o : (α : Type) → List α → List α)
    (phrase : List Nat) : List (List Nat) :=
  (solveMappingsO s o phrase).map (fun m => renderMapping m phrase)

/-- `Solver::solve`. -/
def solve (s : Solver) (phrase : List Nat) : List (List Nat) :=
  solveO s idOrder phrase

/-- The complete mappings underlying `solve`. -/
def solveMappings (s : Solver) (phrase : List Nat) : List Mapping :=
  solveMappingsO s idOrder phrase

/-- A lowercase ASCII letter, the alphabet of the cipher. -/
def isLower (u : Nat) : Prop := 97 ≤ u ∧ u ≤ 122

instance isLowerDecidable (u : Nat) : Decidable (isLower u) := by
  unfold isLower; infer_instance

/-- Joining words with single spaces, the shape of a phrase composed of
dictionary words. -/
def joinWords (ws : List Word) : List Nat :=
  List.intercalate [32] ws

/-- Injectivity of a mapping viewed as a partial function. -/
def MappingInjective (m : Mapping) : Prop :=
  ∀ k1 k2 v, mlookup m k1 = some v → mlookup m k2 = some v → k1 = k2

/-- No-duplicate-keys invariant every `FxHashMap` satisfies. -/
def NodupKeys (m : Mapping) : Prop := (mkeys m).Nodup

instance nodupKeysDecidable (m : Mapping) : Decidable (NodupKeys m) := by
  unfold NodupKeys; infer_instance

/-- Following the spec's words for the Candidate Matcher (its sections 4.2
and 4.3), for comparison with `retainLoop`: every mapped position
intersects, and an unseen (position, byte) bucket denotes the empty set. -/
def specRetainLoop (s : Solver) (m : Mapping) : List (Nat × Nat) → List Word → List Word
  | [], cands => cands
  | (idx, u) :: rest, cands =>
    match mlookup m u with
    | none => specRetainLoop s m rest cands
    | some mc =>
      specRetainLoop s m rest
        (cands.filter (fun x => decide (x ∈ (wordsByCharAndIndex s mc idx).getD [])))

/-- Following the spec's words for the Candidate Matcher, for comparison
with `findCandidateMatches`. -/
def specCandidateMatches (s : Solver) (w : Word) (m : Mapping) : List Word :=
  specRetainLoop s m (enumFrom 0 w) (wordsByPattern s w)

/-- The merged mapping of the Mapping Extender, as a partial function: the
zipped token/candidate pairs take precedence, the existing mapping fills in
the rest. -/
def mergedLookup (pairs : List (Nat × Nat)) (m : Mapping) (k : Nat) : Option Nat :=
  match mlookup pairs k with
  | some b => some b
  | none => mlookup m k

/-- One step of collecting bytes in first-occurrence order. -/
def firstsStep (acc : List Nat) (u : Nat) : List Nat :=
  if u ∈ acc then acc else acc ++ [u]

/-- Collect the distinct bytes of a word in first-occurrence order,
continuing from an already-seen list. -/
def firstsFold (seen : List Nat) (w : Word) : List Nat :=
  w.foldl firstsStep seen

/-- The distinct bytes of a word in first-occurrence order. -/
def firsts (w : Word) : List Nat :=
  firstsFold [] w

/-- Index of the first occurrence of a byte in a list (length if absent). -/
def idxN (u : Nat) : List Nat → Nat
  | [] => 0
  | v :: l => if v = u then 0 else idxN u l + 1

/-- Number of first-occurrence positions of `w` strictly before `i`: the
purely structural quantity a pattern id equals. -/
def countFirstOcc (w : Word) (i : Nat) : Nat :=
  ((List.range i).filter (fun j => decide (∀ k, k < j → w.get? k ≠ w.get? j))).length

/-- Invariant of the round-trip argument: every entry of the mapping sends
the encryption of a lowercase letter back to that letter. -/
def GoodMap (f : Nat → Nat) (m : Mapping) : Prop :=
  ∀ k v, mlookup m k = some v → f v = k ∧ isLower v

/-- Structural equivalence of two words: same length and equal-letter
positions agree everywhere. -/
def StructEquiv (w1 w2 : Word) : Prop :=
  w1.length = w2.length ∧
    ∀ i j, i < w1.length → j < w1.length → (w1.get? i = w1.get? j ↔ w2.get? i = w2.get? j)

/-! Association-list lemmas for the `FxHashMap` embedding. -/

theorem mlookup_minsert (m : Mapping) (k v u : Nat) :
    mlookup (minsert m k v) u = if u = k then some v else mlookup m u := by
  induction m with
  | nil => simp [minsert, mlookup]
  | cons p m ih =>
    obtain ⟨k0, v0⟩ := p
    by_cases hk : k = k0
    · subst hk
      by_cases hu : u = k <;> simp [minsert, mlookup, hu]
    · by_cases hu : u = k0
      · subst hu
        have : ¬ u = k := fun h => hk h.symm
        simp [minsert, mlookup, hk, this]
      · simp [minsert, mlookup, hk, hu, ih]

theorem mkeys_minsert (m : Mapping) (k v : Nat) :
    mkeys (minsert m k v) = if k ∈ mkeys m then mkeys m else mkeys m ++ [k] := by
  induction m with
  | nil => simp [minsert, mkeys]
  | cons p m ih =>
    obtain ⟨k0, v0⟩ := p
    by_cases hk : k = k0
    · subst hk; simp [minsert, mkeys]
    · have h1 : minsert ((k0, v0) :: m) k v = (k0, v0) :: minsert m k v := by
        simp [minsert, hk]
      have h2 : mkeys ((k0, v0) :: m) = k0 :: mkeys m := rfl
      have h3 : mkeys ((k0, v0) :: minsert m k v) = k0 :: mkeys (minsert m k v) := rfl
      rw [h1, h2, h3, ih]
      by_cases hmem : k ∈ mkeys m
      · simp [hmem, List.mem_cons]
      · simp [hmem, List.mem_cons, hk]

theorem nodupKeys_minsert {m : Mapping} (h : NodupKeys m) (k v : Nat) :
    NodupKeys (minsert m k v) := by
  unfold NodupKeys at h ⊢
  rw [mkeys_minsert]
  by_cases hmem : k ∈ mkeys m
  · simpa [hmem] using h
  · simp [hmem, List.nodup_append, h]

theorem nodupKeys_cons {k0 v0 : Nat} {m : Mapping} (hm : NodupKeys ((k0, v0) :: m)) :
    k0 ∉ mkeys m ∧ NodupKeys m := by
  have h : (k0 :: mkeys m).Nodup := hm
  exact ⟨(List.nodup_cons.1 h).1, (List.nodup_cons.1 h).2⟩

theorem mem_mkeys_iff_isSome (m : Mapping) (u : Nat) :
    u ∈ mkeys m ↔ (mlookup m u).isSome := by
  induction m with
  | nil => simp [mkeys, mlookup]
  | cons p m ih =>
    obtain ⟨k0, v0⟩ := p
    have h2 : mkeys ((k0, v0) :: m) = k0 :: mkeys m := rfl
    rw [h2, List.mem_cons]
    by_cases hu : u = k0
    · subst hu; simp [mlookup]
    · have h3 : mlookup ((k0, v0) :: m) u = mlookup m u := by simp [mlookup, hu]
      rw [h3, ← ih]
      simp [hu]

theorem mem_of_mlookup {m : Mapping} {u v : Nat} (h : mlookup m u = some v) :
    (u, v) ∈ m := by
  induction m with
  | nil => simp [mlookup] at h
  | cons p m ih =>
    obtain ⟨k0, v0⟩ := p
    by_cases hu : u = k0
    · subst hu
      simp [mlookup] at h
      simp [h]
    · simp [mlookup, hu] at h
      exact List.mem_cons_of_mem _ (ih h)

theorem mlookup_of_mem {m : Mapping} (hm : NodupKeys m) {u v : Nat}
    (h : (u, v) ∈ m) : mlookup m u = some v := by
  induction m with
  | nil => simp at h
  | cons p m ih =>
    obtain ⟨k0, v0⟩ := p
    have hm2 := nodupKeys_cons hm
    rcases List.mem_cons.1 h with h1 | h1
    · have ha : u = k0 := congrArg Prod.fst h1
      have hb : v = v0 := congrArg Prod.snd h1
      subst ha; subst hb
      simp [mlookup]
    · have hk : ¬ u = k0 := by
        intro hu
        subst hu
        exact hm2.1 (List.mem_map_of_mem Prod.fst h1)
      simp [mlookup, hk]
      exact ih hm2.2 h1

theorem morInsert_isSome {m : Mapping} {k : Nat} (h : (mlookup m k).isSome)
    (v : Nat) : morInsert m k v = m := by
  unfold morInsert
  cases hm : mlookup m k with
  | none => rw [hm] at h; simp at h
  | some w => simp

theorem morInsert_none {m : Mapping} {k : Nat} (h : mlookup m k = none)
    (v : Nat) : morInsert m k v = minsert m k v := by
  unfold morInsert
  rw [h]

theorem nodupKeys_morInsert {m : Mapping} (h : NodupKeys m) (k v : Nat) :
    NodupKeys (morInsert m k v) := by
  unfold morInsert
  cases hm : mlookup m k with
  | none => exact nodupKeys_minsert h k v
  | some w => exact h

theorem mlookup_foldl_morInsert (m : Mapping) :
    ∀ (acc : Mapping) (k : Nat),
      mlookup (m.foldl (fun a p => morInsert a p.1 p.2) acc) k =
        if (mlookup acc k).isSome then mlookup acc k else mlookup m k := by
  induction m with
  | nil => intro acc k; cases h : mlookup acc k <;> simp [h, mlookup]
  | cons p m ih =>
    intro acc k
    obtain ⟨k0, v0⟩ := p
    have step : List.foldl (fun a p => morInsert a p.1 p.2) acc ((k0, v0) :: m) =
        List.foldl (fun a p => morInsert a p.1 p.2) (morInsert acc k0 v0) m := rfl
    rw [step, ih]
    cases hacc : mlookup acc k with
    | some w =>
      have hsome : mlookup (morInsert acc k0 v0) k = some w := by
        unfold morInsert
        cases hk0 : mlookup acc k0 with
        | some w0 => exact hacc
        | none =>
          rw [mlookup_minsert]
          have : k ≠ k0 := by
            intro h; subst h; rw [hacc] at hk0; exact Option.noConfusion hk0
          simp [this, hacc]
      simp [hsome, hacc]
    | none =>
      by_cases hk : k = k0
      · subst hk
        unfold morInsert
        rw [hacc]
        rw [mlookup_minsert]
        simp [mlookup]
      · have hnone : mlookup (morInsert acc k0 v0) k = none := by
          unfold morInsert
          cases hk0 : mlookup acc k0 with
          | some w0 => exact hacc
          | none => rw [mlookup_minsert]; simp [hk, hacc]
        simp [hnone, hacc, mlookup, hk]

theorem mlookup_mergeOld (n m : Mapping) (k : Nat) :
    mlookup (mergeOld n m) k =
      if (mlookup n k).isSome then mlookup n k else mlookup m k := by
  unfold mergeOld
  exact mlookup_foldl_morInsert m n k

theorem nodupKeys_mergeOld {n : Mapping} (h : NodupKeys n) (m : Mapping) :
    NodupKeys (mergeOld n m) := by
  unfold mergeOld
  induction m generalizing n with
  | nil => exact h
  | cons p m ih => exact ih (nodupKeys_morInsert h p.1 p.2)

theorem mvalues_length (m : Mapping) : (mvalues m).length = m.length := by
  simp [mvalues]

theorem valuesInjectiveCheck_iff (m : Mapping) :
    valuesInjectiveCheck m = true ↔ (mvalues m).Nodup := by
  unfold valuesInjectiveCheck
  rw [decide_eq_true_eq]
  constructor
  · intro h
    have hsub := List.dedup_sublist (mvalues m)
    have hlen : (mvalues m).dedup.length = (mvalues m).length := by
      rw [h, mvalues_length]
    have := hsub.eq_of_length hlen
    rw [← this]
    exact List.nodup_dedup _
  · intro h
    rw [List.dedup_eq_self.2 h, mvalues_length]

theorem mvalues_nodup_iff_injective {m : Mapping} (hm : NodupKeys m) :
    (mvalues m).Nodup ↔ MappingInjective m := by
  constructor
  · intro h k1 k2 v h1 h2
    have m1 := mem_of_mlookup h1
    have m2 := mem_of_mlookup h2
    have := List.inj_on_of_nodup_map (f := Prod.snd) (l := m) h m1 m2 rfl
    exact congrArg Prod.fst this
  · intro h
    induction m with
    | nil => simp [mvalues]
    | cons p m ih =>
      obtain ⟨k0, v0⟩ := p
      have hm2 := nodupKeys_cons hm
      have hk0 : k0 ∉ mkeys m := hm2.1
      have htail : MappingInjective m := by
        intro k1 k2 v h1 h2
        have hk1 : k1 ≠ k0 := by
          intro he; subst he
          exact hk0 ((mem_mkeys_iff_isSome m k1).2 (by simp [h1]))
        have hk2 : k2 ≠ k0 := by
          intro he; subst he
          exact hk0 ((mem_mkeys_iff_isSome m k2).2 (by simp [h2]))
        exact h k1 k2 v (by simp [mlookup, hk1, h1]) (by simp [mlookup, hk2, h2])
      have hnodup : NodupKeys m := hm2.2
      have hv0 : v0 ∉ mvalues m := by
        intro hmem
        unfold mvalues at hmem
        rcases List.mem_map.1 hmem with ⟨q, hq, hq2⟩
        have hlq : mlookup m q.1 = some v0 := by
          rw [← hq2]
          exact mlookup_of_mem hnodup (by simpa using hq)
        have hq1 : q.1 ≠ k0 := by
          intro he
          apply hk0
          rw [← he]
          exact (mem_mkeys_iff_isSome m q.1).2 (by simp [hlq])
        have h1 : mlookup ((k0, v0) :: m) k0 = some v0 := by simp [mlookup]
        have h2 : mlookup ((k0, v0) :: m) q.1 = some v0 := by
          simp [mlookup, hq1, hlq]
        exact hq1 (h q.1 k0 v0 h2 h1)
      have htl : (mvalues m).Nodup := ih hnodup htail
      exact List.nodup_cons.2 ⟨hv0, htl⟩

/-! Characterization of the Mapping Extender. -/

theorem extendLoop_cons_cases (m acc : Mapping) (ue ud : Nat) (rest : List (Nat × Nat)) :
    ((∀ v, mlookup acc ue = some v → v = ud) ∧ (∀ v, mlookup m ue = some v → v = ud) ∧
       extendLoop m ((ue, ud) :: rest) acc = extendLoop m rest (minsert acc ue ud)) ∨
    (¬ ((∀ v, mlookup acc ue = some v → v = ud) ∧
          (∀ v, mlookup m ue = some v → v = ud)) ∧
       extendLoop m ((ue, ud) :: rest) acc = none) := by
  have heq : extendLoop m ((ue, ud) :: rest) acc = (match mlookup acc ue with
    | some v =>
      if v ≠ ud then none
      else
        match mlookup m ue with
        | some v2 => if v2 ≠ ud then none else extendLoop m rest (minsert acc ue ud)
        | none => extendLoop m rest (minsert acc ue ud)
    | none =>
      match mlookup m ue with
      | some v2 => if v2 ≠ ud then none else extendLoop m rest (minsert acc ue ud)
      | none => extendLoop m rest (minsert acc ue ud)) := rfl
  cases ha : mlookup acc ue with
  | some v =>
    by_cases hva : v = ud
    · cases hb : mlookup m ue with
      | some v2 =>
        by_cases hvb : v2 = ud
        · left
          refine ⟨?_, ?_, ?_⟩
          · intro w hw; injection hw with hw2; rw [← hw2]; exact hva
          · intro w hw; injection hw with hw2; rw [← hw2]; exact hvb
          · rw [heq, ha, hb]; simp [hva, hvb]
        · right
          refine ⟨fun hcon => hvb (hcon.2 v2 rfl), ?_⟩
          rw [heq, ha, hb]; simp [hva, hvb]
      | none =>
        left
        refine ⟨?_, ?_, ?_⟩
        · intro w hw; injection hw with hw2; rw [← hw2]; exact hva
        · intro w hw; exact Option.noConfusion hw
        · rw [heq, ha, hb]; simp [hva]
    · right
      refine ⟨fun hcon => hva (hcon.1 v rfl), ?_⟩
      rw [heq, ha]; simp [hva]
  | none =>
    cases hb : mlookup m ue with
    | some v2 =>
      by_cases hvb : v2 = ud
      · left
        refine ⟨?_, ?_, ?_⟩
        · intro w hw; exact Option.noConfusion hw
        · intro w hw; injection hw with hw2; rw [← hw2]; exact hvb
        · rw [heq, ha, hb]; simp [hvb]
      · right
        refine ⟨fun hcon => hvb (hcon.2 v2 rfl), ?_⟩
        rw [heq, ha, hb]; simp [hvb]
    | none =>
      left
      refine ⟨?_, ?_, ?_⟩
      · intro w hw; exact Option.noConfusion hw
      · intro w hw; exact Option.noConfusion hw
      · rw [heq, ha, hb]

theorem extendLoop_isSome_iff :
    ∀ (pairs : List (Nat × Nat)) (m acc : Mapping),
      (extendLoop m pairs acc).isSome ↔
        ((∀ p : Nat × Nat, p ∈ pairs → ∀ v, mlookup m p.1 = some v → v = p.2) ∧
         (∀ p : Nat × Nat, p ∈ pairs → ∀ v, mlookup acc p.1 = some v → v = p.2) ∧
         (∀ p q : Nat × Nat, p ∈ pairs → q ∈ pairs → p.1 = q.1 → p.2 = q.2)) := by
  intro pairs
  induction pairs with
  | nil => intro m acc; simp [extendLoop]
  | cons hd rest ih =>
    intro m acc
    obtain ⟨a, b⟩ := hd
    rcases extendLoop_cons_cases m acc a b rest with ⟨hacc, hm, heq⟩ | ⟨hnot, heq⟩
    · rw [heq, ih]
      constructor
      · rintro ⟨c1, c2, c3⟩
        refine ⟨?_, ?_, ?_⟩
        · intro p hp v hv
          rcases List.mem_cons.1 hp with h | h
          · subst h; exact hm v hv
          · exact c1 p h v hv
        · intro p hp v hv
          rcases List.mem_cons.1 hp with h | h
          · subst h; exact hacc v hv
          · by_cases hpa : p.1 = a
            · have hv2 : v = b := hacc v (by rw [← hpa]; exact hv)
              have hl : mlookup (minsert acc a b) p.1 = some b := by
                rw [mlookup_minsert, if_pos hpa]
              have hb2 : b = p.2 := c2 p h b hl
              rw [hv2, hb2]
            · have hl : mlookup (minsert acc a b) p.1 = some v := by
                rw [mlookup_minsert, if_neg hpa]; exact hv
              exact c2 p h v hl
        · intro p q hp hq hpq
          rcases List.mem_cons.1 hp with h1 | h1 <;> rcases List.mem_cons.1 hq with h2 | h2
          · rw [h1, h2]
          · subst h1
            have hqa : q.1 = a := by rw [← hpq]
            have hl : mlookup (minsert acc a b) q.1 = some b := by
              rw [mlookup_minsert, if_pos hqa]
            exact c2 q h2 b hl
          · subst h2
            have hpa : p.1 = a := hpq
            have hl : mlookup (minsert acc a b) p.1 = some b := by
              rw [mlookup_minsert, if_pos hpa]
            exact (c2 p h1 b hl).symm
          · exact c3 p q h1 h2 hpq
      · rintro ⟨d1, d2, d3⟩
        refine ⟨?_, ?_, ?_⟩
        · intro p hp v hv; exact d1 p (List.mem_cons_of_mem _ hp) v hv
        · intro p hp v hv
          rw [mlookup_minsert] at hv
          by_cases hpa : p.1 = a
          · rw [if_pos hpa] at hv
            injection hv with hv2
            have hb2 : b = p.2 :=
              d3 (a, b) p (List.mem_cons_self _ _) (List.mem_cons_of_mem _ hp) (by rw [hpa])
            rw [← hv2, hb2]
          · rw [if_neg hpa] at hv
            exact d2 p (List.mem_cons_of_mem _ hp) v hv
        · intro p q hp hq
          exact d3 p q (List.mem_cons_of_mem _ hp) (List.mem_cons_of_mem _ hq)
    · rw [heq]
      constructor
      · intro h; exact absurd h (by simp)
      · rintro ⟨d1, d2, d3⟩
        exact absurd ⟨fun v hv => d2 (a, b) (List.mem_cons_self _ _) v hv,
          fun v hv => d1 (a, b) (List.mem_cons_self _ _) v hv⟩ hnot

theorem extendLoop_lookup :
    ∀ (pairs : List (Nat × Nat)) (m acc n : Mapping),
      extendLoop m pairs acc = some n →
      (∀ p q : Nat × Nat, p ∈ pairs → q ∈ pairs → p.1 = q.1 → p.2 = q.2) →
      ∀ k, mlookup n k =
        if (mlookup pairs k).isSome then mlookup pairs k else mlookup acc k := by
  intro pairs
  induction pairs with
  | nil =>
    intro m acc n h hw k
    simp [extendLoop] at h
    rw [← h]
    simp [mlookup]
  | cons hd rest ih =>
    intro m acc n h hw k
    obtain ⟨a, b⟩ := hd
    have hwr : ∀ p q : Nat × Nat, p ∈ rest → q ∈ rest → p.1 = q.1 → p.2 = q.2 :=
      fun p q hp hq => hw p q (List.mem_cons_of_mem _ hp) (List.mem_cons_of_mem _ hq)
    rcases extendLoop_cons_cases m acc a b rest with ⟨_, _, heq⟩ | ⟨_, heq⟩
    · rw [heq] at h
      have hrec := ih m (minsert acc a b) n h hwr k
      rw [hrec]
      by_cases hk : k = a
      · subst hk
        cases hr : mlookup rest k with
        | some b2 =>
          have hb2 : b2 = b :=
            hw (k, b2) (k, b) (List.mem_cons_of_mem _ (mem_of_mlookup hr))
              (List.mem_cons_self _ _) rfl
          simp [hr, mlookup, hb2]
        | none => simp [hr, mlookup, mlookup_minsert]
      · cases hr : mlookup rest k with
        | some b2 => simp [hr, mlookup, hk]
        | none => simp [hr, mlookup, hk, mlookup_minsert]
    · rw [heq] at h; exact Option.noConfusion h

theorem extendLoop_nodupKeys :
    ∀ (pairs : List (Nat × Nat)) (m acc n : Mapping),
      extendLoop m pairs acc = some n → NodupKeys acc → NodupKeys n := by
  intro pairs
  induction pairs with
  | nil =>
    intro m acc n h hacc
    simp [extendLoop] at h
    rw [← h]; exact hacc
  | cons hd rest ih =>
    intro m acc n h hacc
    obtain ⟨a, b⟩ := hd
    rcases extendLoop_cons_cases m acc a b rest with ⟨_, _, heq⟩ | ⟨_, heq⟩
    · rw [heq] at h
      exact ih m _ n h (nodupKeys_minsert hacc a b)
    · rw [heq] at h; exact Option.noConfusion h

theorem tryExtend_cases (word t : Word) (m : Mapping) :
    (∃ newM, extendLoop m (t.zip word) [] = some newM ∧
       ((valuesInjectiveCheck (mergeOld newM m) = true ∧
           tryExtendMapping word t m = some (mergeOld newM m)) ∨
        (valuesInjectiveCheck (mergeOld newM m) = false ∧
           tryExtendMapping word t m = none))) ∨
    (extendLoop m (t.zip word) [] = none ∧ tryExtendMapping word t m = none) := by
  cases h : extendLoop m (t.zip word) [] with
  | none =>
    right
    exact ⟨rfl, by unfold tryExtendMapping; rw [h]⟩
  | some newM =>
    left
    refine ⟨newM, rfl, ?_⟩
    by_cases hc : valuesInjectiveCheck (mergeOld newM m) = true
    · left
      exact ⟨hc, by unfold tryExtendMapping; rw [h]; simp [hc]⟩
    · right
      exact ⟨by simpa using hc, by unfold tryExtendMapping; rw [h]; simp [hc]⟩

theorem tryExtend_some_parts {word t : Word} {m m2 : Mapping}
    (h : tryExtendMapping word t m = some m2) :
    ∃ newM, extendLoop m (t.zip word) [] = some newM ∧
      m2 = mergeOld newM m ∧ valuesInjectiveCheck m2 = true := by
  rcases tryExtend_cases word t m with ⟨newM, hl, ⟨hc, he⟩ | ⟨hc, he⟩⟩ | ⟨hl, he⟩
  · rw [he] at h
    injection h with h2
    exact ⟨newM, hl, h2.symm, by rw [← h2]; exact hc⟩
  · rw [he] at h; exact Option.noConfusion h
  · rw [he] at h; exact Option.noConfusion h

theorem tryExtend_nodupKeys {word t : Word} {m m2 : Mapping}
    (h : tryExtendMapping word t m = some m2) : NodupKeys m2 := by
  rcases tryExtend_some_parts h with ⟨newM, hl, hm2, _⟩
  have h1 : NodupKeys newM :=
    extendLoop_nodupKeys _ m [] newM hl (by simp [NodupKeys, mkeys])
  rw [hm2]
  exact nodupKeys_mergeOld h1 m

theorem tryExtend_injective {word t : Word} {m m2 : Mapping}
    (h : tryExtendMapping word t m = some m2) : MappingInjective m2 :=
  (mvalues_nodup_iff_injective (tryExtend_nodupKeys h)).1
    ((valuesInjectiveCheck_iff m2).1 (tryExtend_some_parts h).choose_spec.2.2)

theorem mergeOld_extendLoop_lookup {t word : Word} {m newM : Mapping}
    (hl : extendLoop m (t.zip word) [] = some newM)
    (hw : ∀ p q : Nat × Nat, p ∈ t.zip word → q ∈ t.zip word → p.1 = q.1 → p.2 = q.2) :
    ∀ k, mlookup (mergeOld newM m) k = mergedLookup (t.zip word) m k := by
  intro k
  rw [mlookup_mergeOld]
  have hnew := extendLoop_lookup (t.zip word) m [] newM hl hw k
  rw [hnew]
  cases hp : mlookup (t.zip word) k with
  | some b => simp [mergedLookup, hp]
  | none => simp [mergedLookup, hp, mlookup]

theorem tryExtend_lookup {word t : Word} {m m2 : Mapping}
    (h : tryExtendMapping word t m = some m2) :
    ∀ k, mlookup m2 k = mergedLookup (t.zip word) m k := by
  rcases tryExtend_some_parts h with ⟨newM, hl, hm2, _⟩
  have hw := ((extendLoop_isSome_iff (t.zip word) m []).1 (by rw [hl]; rfl)).2.2
  intro k
  rw [hm2]
  exact mergeOld_extendLoop_lookup hl hw k

theorem tryExtend_spec (word t : Word) (m : Mapping) :
    ((tryExtendMapping word t m).isSome ↔
      ((∀ p q : Nat × Nat, p ∈ t.zip word → q ∈ t.zip word → p.1 = q.1 → p.2 = q.2) ∧
       (∀ p : Nat × Nat, p ∈ t.zip word → ∀ v, mlookup m p.1 = some v → v = p.2) ∧
       (∀ k1 k2 v, mergedLookup (t.zip word) m k1 = some v →
         mergedLookup (t.zip word) m k2 = some v → k1 = k2))) ∧
    (∀ m2, tryExtendMapping word t m = some m2 →
      ∀ k v, mlookup m k = some v → mlookup m2 k = some v) := by
  constructor
  · constructor
    · intro h
      obtain ⟨m2, hm2⟩ := Option.isSome_iff_exists.1 h
      rcases tryExtend_some_parts hm2 with ⟨newM, hl, hmerge, _⟩
      have hconds := (extendLoop_isSome_iff (t.zip word) m []).1 (by rw [hl]; rfl)
      refine ⟨hconds.2.2, hconds.1, ?_⟩
      intro k1 k2 v h1 h2
      have hlk := tryExtend_lookup hm2
      exact tryExtend_injective hm2 k1 k2 v (by rw [hlk k1]; exact h1)
        (by rw [hlk k2]; exact h2)
    · rintro ⟨c1, c2, c3⟩
      have hloop : (extendLoop m (t.zip word) []).isSome :=
        (extendLoop_isSome_iff (t.zip word) m []).2
          ⟨c2, fun p _ v hv => by simp [mlookup] at hv, c1⟩
      obtain ⟨newM, hl⟩ := Option.isSome_iff_exists.1 hloop
      have hlk := mergeOld_extendLoop_lookup hl c1
      have hinj : MappingInjective (mergeOld newM m) := by
        intro k1 k2 v h1 h2
        exact c3 k1 k2 v (by rw [← hlk k1]; exact h1) (by rw [← hlk k2]; exact h2)
      have hnd : NodupKeys (mergeOld newM m) :=
        nodupKeys_mergeOld
          (extendLoop_nodupKeys _ m [] newM hl (by simp [NodupKeys, mkeys])) m
      have hcheck : valuesInjectiveCheck (mergeOld newM m) = true :=
        (valuesInjectiveCheck_iff _).2 ((mvalues_nodup_iff_injective hnd).2 hinj)
      have : tryExtendMapping word t m = some (mergeOld newM m) := by
        unfold tryExtendMapping
        rw [hl]
        simp [hcheck]
      rw [this]; rfl
  · intro m2 hm2 k v hv
    have hlk := tryExtend_lookup hm2
    have hw := ((extendLoop_isSome_iff (t.zip word) m []).1
      (by rcases tryExtend_some_parts hm2 with ⟨newM, hl, _, _⟩; rw [hl]; rfl))
    rw [hlk k]
    unfold mergedLookup
    cases hp : mlookup (t.zip word) k with
    | some b =>
      have hb : v = b := hw.1 (k, b) (mem_of_mlookup hp) v hv
      rw [hb]
    | none => exact hv

/-- C4: the Mapping Extender succeeds exactly when the zipped
(encrypted byte, plaintext byte) pairs are self-consistent, consistent with
the current mapping, and the merged mapping is injective; on success every
entry of the input mapping is present unchanged in the output. -/
theorem mapping_extender_characterization (word t : Word) (m : Mapping) :
    ((tryExtendMapping word t m).isSome ↔
      ((∀ p q : Nat × Nat, p ∈ t.zip word → q ∈ t.zip word → p.1 = q.1 → p.2 = q.2) ∧
       (∀ p : Nat × Nat, p ∈ t.zip word → ∀ v, mlookup m p.1 = some v → v = p.2) ∧
       (∀ k1 k2 v, mergedLookup (t.zip word) m k1 = some v →
         mergedLookup (t.zip word) m k2 = some v → k1 = k2))) ∧
    (∀ m2, tryExtendMapping word t m = some m2 →
      ∀ k v, mlookup m k = some v → mlookup m2 k = some v) :=
  tryExtend_spec word t m

/-! Search-level lemmas. -/

theorem sortTokens_perm (s : Solver) (m : Mapping) (tokens : List Word) :
    (sortTokens s m tokens).Perm tokens :=
  List.perm_insertionSort _ _

theorem sortTokens_nil (s : Solver) (m : Mapping) : sortTokens s m [] = [] := rfl

theorem guessO_nil_tokens (s : Solver) (o : (α : Type) → List α → List α)
    (fuel : Nat) (m : Mapping) : guessO s o fuel m [] = [m] := by
  cases fuel <;> rfl

theorem guessO_none_eq (s : Solver) (o : (α : Type) → List α → List α)
    (fuel : Nat) (m : Mapping) (tokens : List Word)
    (h : (sortTokens s m tokens).getLast? = none) :
    guessO s o fuel m tokens = [m] := by
  cases fuel with
  | zero => simp only [guessO]; rw [h]
  | succ fuel => simp only [guessO]; rw [h]

theorem guessO_zero_some (s : Solver) (o : (α : Type) → List α → List α)
    (m : Mapping) (tokens : List Word) (chosen : Word)
    (h : (sortTokens s m tokens).getLast? = some chosen) :
    guessO s o 0 m tokens = [] := by
  simp only [guessO]; rw [h]

theorem guessO_succ_eq (s : Solver) (o : (α : Type) → List α → List α)
    (fuel : Nat) (m : Mapping) (tokens : List Word) (chosen : Word)
    (h : (sortTokens s m tokens).getLast? = some chosen) :
    guessO s o (fuel + 1) m tokens =
      (o Mapping ((findCandidateMatches s chosen m).filterMap
          (fun w => tryExtendMapping w chosen m))).flatMap
        (fun m2 => guessO s o fuel m2 (sortTokens s m tokens).dropLast) := by
  simp only [guessO]; rw [h]

theorem guessO_invariant (s : Solver) (o : (α : Type) → List α → List α)
    (ho : ∀ (α : Type) (l : List α), (o α l).Perm l) :
    ∀ (fuel : Nat) (tokens : List Word) (m m2 : Mapping),
      NodupKeys m → MappingInjective m → m2 ∈ guessO s o fuel m tokens →
      NodupKeys m2 ∧ MappingInjective m2 := by
  intro fuel
  induction fuel with
  | zero =>
    intro tokens m m2 hnd hinj hmem
    cases hL : (sortTokens s m tokens).getLast? with
    | none =>
      rw [guessO_none_eq s o 0 m tokens hL] at hmem
      simp at hmem
      rw [hmem]; exact ⟨hnd, hinj⟩
    | some c =>
      rw [guessO_zero_some s o m tokens c hL] at hmem
      simp at hmem
  | succ fuel ih =>
    intro tokens m m2 hnd hinj hmem
    cases hL : (sortTokens s m tokens).getLast? with
    | none =>
      rw [guessO_none_eq s o _ m tokens hL] at hmem
      simp at hmem
      rw [hmem]; exact ⟨hnd, hinj⟩
    | some chosen =>
      rw [guessO_succ_eq s o fuel m tokens chosen hL] at hmem
      rcases List.mem_flatMap.1 hmem with ⟨m1, hm1, hmem2⟩
      have hm1L : m1 ∈ (findCandidateMatches s chosen m).filterMap
          (fun w => tryExtendMapping w chosen m) := ((ho Mapping _).mem_iff).1 hm1
      rcases List.mem_filterMap.1 hm1L with ⟨w, _, hw⟩
      exact ih _ m1 m2 (tryExtend_nodupKeys hw) (tryExtend_injective hw) hmem2

/-- C2: every mapping produced by a solve call is injective: no two distinct
encrypted bytes map to the same decrypted byte, for every dictionary and
phrase. -/
theorem solve_mappings_injective (s : Solver) (phrase : List Nat) (m : Mapping)
    (h : m ∈ solveMappings s phrase) : MappingInjective m := by
  unfold solveMappings solveMappingsO at h
  exact (guessO_invariant s idOrder (fun α l => List.Perm.refl l) _ _ [] m
    (by simp [NodupKeys, mkeys]) (fun k1 k2 v h1 => by simp [mlookup] at h1) h).2

theorem c2_witness : MappingInjective [(98, 97)] :=
  solve_mappings_injective ⟨[[97]]⟩ [98] [(98, 97)] (by decide)

theorem splitWSGo_all_ws :
    ∀ (p : List Nat), (∀ u ∈ p, isWhitespaceB u = true) → splitWSGo p [] = [] := by
  intro p
  induction p with
  | nil => intro _; rfl
  | cons u us ih =>
    intro h
    have hu : isWhitespaceB u = true := h u (List.mem_cons_self _ _)
    have : splitWSGo (u :: us) [] = splitWSGo us [] := by
      simp [splitWSGo, hu]
    rw [this]
    exact ih (fun v hv => h v (List.mem_cons_of_mem _ hv))

theorem renderMapping_empty (phrase : List Nat) : renderMapping [] phrase = phrase := by
  unfold renderMapping
  have : ∀ u : Nat, (mlookup [] u).getD u = u := fun u => rfl
  simp [this]

/-- C5: when no encrypted tokens remain the search yields exactly the
current partial mapping as its sole solution; in particular a phrase with
zero tokens (all whitespace) decodes to exactly itself. -/
theorem terminal_yields_current_mapping (s : Solver) (o : (α : Type) → List α → List α)
    (fuel : Nat) (m : Mapping) (phrase : List Nat)
    (hws : ∀ u ∈ phrase, isWhitespaceB u = true) :
    guessO s o fuel m [] = [m] ∧ solve s phrase = [phrase] := by
  refine ⟨guessO_nil_tokens s o fuel m, ?_⟩
  have hsplit : splitWhitespace phrase = [] := splitWSGo_all_ws phrase hws
  unfold solve solveO solveMappingsO solveTokens
  rw [hsplit]
  show (guessO s idOrder ([] : List Word).dedup.length [] ([] : List Word).dedup).map
      (fun m => renderMapping m phrase) = [phrase]
  rw [show ([] : List Word).dedup = [] from rfl, guessO_nil_tokens]
  simp [renderMapping_empty]

theorem c5_witness :
    guessO ⟨[[97]]⟩ idOrder 2 [(98, 97)] [] = [[(98, 97)]] ∧
      solve ⟨[[97]]⟩ [32, 9, 32] = [[32, 9, 32]] :=
  terminal_yields_current_mapping ⟨[[97]]⟩ idOrder 2 [(98, 97)] [32, 9, 32] (by decide)

/-- C7: every decoded string has exactly the phrase's byte length, and at
every position the output byte is the mapped image of the input byte when
mapped, and the unchanged input byte otherwise. -/
theorem renderer_frame (s : Solver) (phrase out : List Nat)
    (h : out ∈ solve s phrase) :
    out.length = phrase.length ∧
      ∃ m, m ∈ solveMappings s phrase ∧
        ∀ i u, phrase.get? i = some u →
          ((∃ v, mlookup m u = some v ∧ out.get? i = some v) ∨
           (mlookup m u = none ∧ out.get? i = some u)) := by
  unfold solve solveO at h
  rcases List.mem_map.1 h with ⟨m, hm, hout⟩
  constructor
  · rw [← hout]; simp [renderMapping]
  · refine ⟨m, hm, ?_⟩
    intro i u hu
    have hget : out.get? i = some ((mlookup m u).getD u) := by
      rw [← hout]
      unfold renderMapping
      rw [List.get?_map, hu]
      rfl
    cases hv : mlookup m u with
    | some v =>
      left
      exact ⟨v, rfl, by rw [hget, hv]; rfl⟩
    | none =>
      right
      exact ⟨rfl, by rw [hget, hv]; rfl⟩

theorem c7_witness :
    ([97] : List Nat).length = ([98] : List Nat).length ∧
      ∃ m, m ∈ solveMappings ⟨[[97]]⟩ [98] ∧
        ∀ i u, ([98] : List Nat).get? i = some u →
          ((∃ v, mlookup m u = some v ∧ ([97] : List Nat).get? i = some v) ∨
           (mlookup m u = none ∧ ([97] : List Nat).get? i = some u)) :=
  renderer_frame ⟨[[97]]⟩ [98] [97] (by decide)

theorem guessO_fuel_invariance (s : Solver) (o : (α : Type) → List α → List α) :
    ∀ (f1 : Nat) (tokens : List Word) (m : Mapping) (f2 : Nat),
      tokens.length ≤ f1 → tokens.length ≤ f2 →
      guessO s o f1 m tokens = guessO s o f2 m tokens := by
  intro f1
  induction f1 with
  | zero =>
    intro tokens m f2 h1 h2
    have : tokens = [] := List.length_eq_zero.1 (Nat.le_zero.1 h1)
    subst this
    rw [guessO_nil_tokens, guessO_nil_tokens]
  | succ f1 ih =>
    intro tokens m f2 h1 h2
    cases hL : (sortTokens s m tokens).getLast? with
    | none => rw [guessO_none_eq _ _ _ _ _ hL, guessO_none_eq _ _ _ _ _ hL]
    | some chosen =>
      have hne : tokens ≠ [] := by
        intro he
        subst he
        rw [sortTokens_nil] at hL
        exact Option.noConfusion hL
      have hpos : 0 < tokens.length := List.length_pos.2 hne
      cases f2 with
      | zero => omega
      | succ f2 =>
        rw [guessO_succ_eq s o f1 m tokens chosen hL,
          guessO_succ_eq s o f2 m tokens chosen hL]
        have hlen : (sortTokens s m tokens).dropLast.length = tokens.length - 1 := by
          rw [List.length_dropLast, (sortTokens_perm s m tokens).length_eq]
        have hrec : ∀ m2, guessO s o f1 m2 (sortTokens s m tokens).dropLast =
            guessO s o f2 m2 (sortTokens s m tokens).dropLast := by
          intro m2
          apply ih
          · omega
          · omega
        exact congrArg _ (funext hrec)

/-- C9: the search terminates for every dictionary and phrase: the tokens
handed to the search are deduplicated, each recursive call removes exactly
one token, and a recursion-depth budget equal to the number of distinct
tokens is already exact — any larger budget computes the same result. -/
theorem search_termination (s : Solver) (o : (α : Type) → List α → List α)
    (fuel : Nat) (m : Mapping) (tokens : List Word) (phrase : List Nat)
    (h : tokens.length ≤ fuel) :
    guessO s o fuel m tokens = guessO s o tokens.length m tokens ∧
      (solveTokens phrase).Nodup ∧
      (sortTokens s m tokens).dropLast.length = tokens.length - 1 := by
  refine ⟨guessO_fuel_invariance s o fuel tokens m tokens.length h (Nat.le_refl _), ?_, ?_⟩
  · exact List.nodup_dedup _
  · rw [List.length_dropLast, (sortTokens_perm s m tokens).length_eq]

theorem c9_witness :
    guessO ⟨[[97]]⟩ idOrder 7 [] [[98]] = guessO ⟨[[97]]⟩ idOrder 1 [] [[98]] ∧
      (solveTokens [98, 32, 98]).Nodup ∧
      (sortTokens ⟨[[97]]⟩ [] [[98]]).dropLast.length = 0 := by
  have := search_termination ⟨[[97]]⟩ idOrder 7 [] [[98]] [98, 32, 98] (by decide)
  exact ⟨this.1, this.2.1, this.2.2⟩

theorem mem_of_getLast? {α : Type} :
    ∀ {l : List α} {c : α}, l.getLast? = some c → c ∈ l := by
  intro l
  induction l with
  | nil => intro c h; exact Option.noConfusion h
  | cons a l ih =>
    intro c h
    cases l with
    | nil =>
      have : a = c := by simpa using h
      rw [this]; exact List.mem_singleton_self c
    | cons b l2 =>
      rw [List.getLast?_cons_cons] at h
      exact List.mem_cons_of_mem _ (ih h)

theorem pairwise_getLast_min {α : Type} {r : α → α → Prop} :
    ∀ {l : List α} {c : α}, l.Pairwise r → l.getLast? = some c →
      ∀ y ∈ l, y = c ∨ r y c := by
  intro l
  induction l with
  | nil => intro c _ h; exact Option.noConfusion h
  | cons a l ih =>
    intro c hp hL y hy
    cases l with
    | nil =>
      have hac : a = c := by simpa using hL
      have hya : y = a := List.mem_singleton.1 hy
      left; rw [hya, hac]
    | cons b l2 =>
      rw [List.getLast?_cons_cons] at hL
      have hmemc : c ∈ b :: l2 := mem_of_getLast? hL
      rcases List.mem_cons.1 hy with hya | hy2
      · right
        rw [hya]
        exact (List.pairwise_cons.1 hp).1 c hmemc
      · exact ih (List.pairwise_cons.1 hp).2 hL y hy2

/-- C6: the token the search resolves next is one with minimal candidate
count among the remaining unresolved tokens, and a chosen token with zero
candidates produces no recursive calls — the branch dies with no
solutions. -/
theorem most_constrained_first (s : Solver) (o : (α : Type) → List α → List α)
    (ho : ∀ (α : Type) (l : List α), (o α l).Perm l)
    (fuel : Nat) (m : Mapping) (tokens : List Word) (chosen : Word)
    (h : (sortTokens s m tokens).getLast? = some chosen) :
    (∀ t ∈ tokens, countKey s m chosen ≤ countKey s m t) ∧
      (countKey s m chosen = 0 → guessO s o (fuel + 1) m tokens = []) := by
  have hsorted : (sortTokens s m tokens).Pairwise (descRel s m) :=
    List.sorted_insertionSort _ _
  constructor
  · intro t ht
    have ht2 : t ∈ sortTokens s m tokens := ((sortTokens_perm s m tokens).mem_iff).2 ht
    rcases pairwise_getLast_min hsorted h t ht2 with he | hr
    · rw [he]
    · exact hr
  · intro h0
    rw [guessO_succ_eq s o fuel m tokens chosen h]
    have hcand : findCandidateMatches s chosen m = [] := List.length_eq_zero.1 h0
    rw [hcand]
    rw [show List.filterMap (fun w => tryExtendMapping w chosen m) [] = ([] : List Mapping)
      from rfl]
    rw [(ho Mapping []).eq_nil]
    rfl

theorem c6_witness :
    (∀ t ∈ ([[98]] : List Word), countKey ⟨[[97]]⟩ [] [98] ≤ countKey ⟨[[97]]⟩ [] t) ∧
      (countKey ⟨[[97]]⟩ [] [98] = 0 → guessO ⟨[[97]]⟩ idOrder 1 [] [[98]] = []) :=
  most_constrained_first ⟨[[97]]⟩ idOrder (fun _ l => List.Perm.refl l) 0 [] [[98]] [98]
    (by decide)

theorem guessO_order_perm (s : Solver) (o1 o2 : (α : Type) → List α → List α)
    (h1 : ∀ (α : Type) (l : List α), (o1 α l).Perm l)
    (h2 : ∀ (α : Type) (l : List α), (o2 α l).Perm l) :
    ∀ (fuel : Nat) (m : Mapping) (tokens : List Word),
      (guessO s o1 fuel m tokens).Perm (guessO s o2 fuel m tokens) := by
  intro fuel
  induction fuel with
  | zero =>
    intro m tokens
    cases hL : (sortTokens s m tokens).getLast? with
    | none =>
      rw [guessO_none_eq _ _ _ _ _ hL, guessO_none_eq _ _ _ _ _ hL]
    | some chosen =>
      rw [guessO_zero_some _ _ _ _ _ hL, guessO_zero_some _ _ _ _ _ hL]
  | succ fuel ih =>
    intro m tokens
    cases hL : (sortTokens s m tokens).getLast? with
    | none =>
      rw [guessO_none_eq _ _ _ _ _ hL, guessO_none_eq _ _ _ _ _ hL]
    | some chosen =>
      rw [guessO_succ_eq s o1 fuel m tokens chosen hL,
        guessO_succ_eq s o2 fuel m tokens chosen hL]
      have hoo : (o1 Mapping ((findCandidateMatches s chosen m).filterMap
          (fun w => tryExtendMapping w chosen m))).Perm
          (o2 Mapping ((findCandidateMatches s chosen m).filterMap
            (fun w => tryExtendMapping w chosen m))) :=
        (h1 Mapping _).trans (h2 Mapping _).symm
      have step1 := hoo.flatMap_right
        (fun m2 => guessO s o1 fuel m2 (sortTokens s m tokens).dropLast)
      have step2 := List.Perm.flatMap_left
        (o2 Mapping ((findCandidateMatches s chosen m).filterMap
          (fun w => tryExtendMapping w chosen m)))
        (fun m2 _ => ih m2 (sortTokens s m tokens).dropLast)
      exact step1.trans step2

/-- C10: solving is deterministic as a two-run property on the solution
set: whatever hash-iteration orders two invocations of solve on the same
solver and phrase happen to use, the returned sequences of decoded strings
are permutations of each other, so the sorted result sequences are
equal. -/
theorem solve_two_run_determinism (s : Solver) (phrase : List Nat)
    (o1 o2 : (α : Type) → List α → List α)
    (h1 : ∀ (α : Type) (l : List α), (o1 α l).Perm l)
    (h2 : ∀ (α : Type) (l : List α), (o2 α l).Perm l) :
    (solveO s o1 phrase).Perm (solveO s o2 phrase) := by
  unfold solveO solveMappingsO
  exact (guessO_order_perm s o1 o2 h1 h2 _ [] (solveTokens phrase)).map
    (fun m => renderMapping m phrase)

theorem c10_witness :
    (solveO ⟨[[116, 111, 111], [115, 101, 101]]⟩ idOrder [120, 101, 101]).Perm
      (solveO ⟨[[116, 111, 111], [115, 101, 101]]⟩ (fun _ l => l.reverse) [120, 101, 101]) :=
  solve_two_run_determinism ⟨[[116, 111, 111], [115, 101, 101]]⟩ [120, 101, 101]
    idOrder (fun _ l => l.reverse) (fun _ l => List.Perm.refl l)
    (fun _ l => l.reverse_perm)

/-! The Candidate Matcher. -/

theorem mem_enumFrom {α : Type} :
    ∀ (l : List α) (n i : Nat) (a : α),
      (i, a) ∈ enumFrom n l ↔ ∃ j, i = n + j ∧ l.get? j = some a := by
  intro l
  induction l with
  | nil => intro n i a; simp [enumFrom]
  | cons b l ih =>
    intro n i a
    simp only [enumFrom, List.mem_cons]
    constructor
    · rintro (h | h)
      · have hi : i = n := congrArg Prod.fst h
        have ha : a = b := congrArg Prod.snd h
        exact ⟨0, by omega, by rw [ha]; rfl⟩
      · rcases (ih (n + 1) i a).1 h with ⟨j, hj, hg⟩
        exact ⟨j + 1, by omega, hg⟩
    · rintro ⟨j, hj, hg⟩
      cases j with
      | zero =>
        left
        have ha : b = a := by
          have : some b = some a := hg
          injection this
        rw [← ha]
        have : i = n := by omega
        rw [this]
      | succ j =>
        right
        exact (ih (n + 1) i a).2 ⟨j, by omega, hg⟩

theorem retainLoop_mem (s : Solver) (m : Mapping) :
    ∀ (pairs : List (Nat × Nat)) (cands : List Word) (x : Word),
      x ∈ retainLoop s m pairs cands ↔
        (x ∈ cands ∧ ∀ p : Nat × Nat, p ∈ pairs → ∀ mc bucket,
          mlookup m p.2 = some mc →
          wordsByCharAndIndex s mc p.1 = some bucket → x ∈ bucket) := by
  intro pairs
  induction pairs with
  | nil => intro cands x; simp [retainLoop]
  | cons hd rest ih =>
    intro cands x
    obtain ⟨idx, u⟩ := hd
    cases hm : mlookup m u with
    | none =>
      have hstep : retainLoop s m ((idx, u) :: rest) cands = retainLoop s m rest cands := by
        simp [retainLoop, hm]
      rw [hstep, ih]
      constructor
      · rintro ⟨hx, hall⟩
        refine ⟨hx, ?_⟩
        intro p hp mc bucket hmc hb
        rcases List.mem_cons.1 hp with hph | hp2
        · have h2 : p.2 = u := congrArg Prod.snd hph
          rw [h2, hm] at hmc
          exact Option.noConfusion hmc
        · exact hall p hp2 mc bucket hmc hb
      · rintro ⟨hx, hall⟩
        exact ⟨hx, fun p hp => hall p (List.mem_cons_of_mem _ hp)⟩
    | some mc0 =>
      cases hb0 : wordsByCharAndIndex s mc0 idx with
      | none =>
        have hstep : retainLoop s m ((idx, u) :: rest) cands = retainLoop s m rest cands := by
          simp [retainLoop, hm, hb0]
        rw [hstep, ih]
        constructor
        · rintro ⟨hx, hall⟩
          refine ⟨hx, ?_⟩
          intro p hp mc bucket hmc hb
          rcases List.mem_cons.1 hp with hph | hp2
          · have h2 : p.2 = u := congrArg Prod.snd hph
            have h1 : p.1 = idx := congrArg Prod.fst hph
            rw [h2, hm] at hmc
            injection hmc with hmc2
            rw [h1, ← hmc2, hb0] at hb
            exact Option.noConfusion hb
          · exact hall p hp2 mc bucket hmc hb
        · rintro ⟨hx, hall⟩
          exact ⟨hx, fun p hp => hall p (List.mem_cons_of_mem _ hp)⟩
      | some others =>
        have hstep : retainLoop s m ((idx, u) :: rest) cands =
            retainLoop s m rest (cands.filter (fun x => decide (x ∈ others))) := by
          simp [retainLoop, hm, hb0]
        rw [hstep, ih]
        constructor
        · rintro ⟨hx, hall⟩
          have hx2 := List.mem_filter.1 hx
          refine ⟨hx2.1, ?_⟩
          intro p hp mc bucket hmc hb
          rcases List.mem_cons.1 hp with hph | hp2
          · have h2 : p.2 = u := congrArg Prod.snd hph
            have h1 : p.1 = idx := congrArg Prod.fst hph
            rw [h2, hm] at hmc
            injection hmc with hmc2
            rw [h1, ← hmc2, hb0] at hb
            injection hb with hb2
            rw [← hb2]
            exact of_decide_eq_true hx2.2
          · exact hall p hp2 mc bucket hmc hb
        · rintro ⟨hx, hall⟩
          refine ⟨List.mem_filter.2 ⟨hx, decide_eq_true ?_⟩,
            fun p hp => hall p (List.mem_cons_of_mem _ hp)⟩
          exact hall (idx, u) (List.mem_cons_self _ _) mc0 others hm hb0

theorem findCandidate_mem_iff (s : Solver) (w : Word) (m : Mapping)
    (x : Word) :
    x ∈ findCandidateMatches s w m ↔
      (x ∈ wordsByPattern s w ∧
        ∀ idx u, w.get? idx = some u → ∀ mc bucket, mlookup m u = some mc →
          wordsByCharAndIndex s mc idx = some bucket → x ∈ bucket) := by
  unfold findCandidateMatches
  rw [retainLoop_mem]
  constructor
  · rintro ⟨hx, hall⟩
    refine ⟨hx, ?_⟩
    intro idx u hg mc bucket hmc hb
    have hp : (idx, u) ∈ enumFrom 0 w := (mem_enumFrom w 0 idx u).2 ⟨idx, by omega, hg⟩
    exact hall (idx, u) hp mc bucket hmc hb
  · rintro ⟨hx, hall⟩
    refine ⟨hx, ?_⟩
    intro p hp mc bucket hmc hb
    obtain ⟨i, u⟩ := p
    rcases (mem_enumFrom w 0 i u).1 hp with ⟨j, hj, hg⟩
    rw [show j = i by omega] at hg
    exact hall i u hg mc bucket hmc hb

/-- C3 (amended): the Candidate Matcher returns exactly the pattern-bucket
candidates filtered, at each position whose encrypted byte is mapped and
whose (position, mapped byte) bucket is present, by membership in that
bucket; a mapped position whose bucket is unseen imposes no constraint,
because the source skips the intersection in that case. -/
theorem candidate_matcher_characterization (s : Solver) (w : Word) (m : Mapping)
    (x : Word) :
    x ∈ findCandidateMatches s w m ↔
      (x ∈ wordsByPattern s w ∧
        ∀ idx u, w.get? idx = some u → ∀ mc bucket, mlookup m u = some mc →
          wordsByCharAndIndex s mc idx = some bucket → x ∈ bucket) :=
  findCandidate_mem_iff s w m x

theorem c3_amended_witness :
    [97, 98] ∈ wordsByPattern ⟨[[97, 98]]⟩ [120, 121] ∧
      ∀ idx u, ([120, 121] : Word).get? idx = some u → ∀ mc bucket,
        mlookup [(121, 122)] u = some mc →
        wordsByCharAndIndex ⟨[[97, 98]]⟩ mc idx = some bucket → [97, 98] ∈ bucket :=
  (candidate_matcher_characterization ⟨[[97, 98]]⟩ [120, 121] [(121, 122)] [97, 98]).1
    (by decide)

/-- C3 (counterexample): with dictionary consisting of the word "ab", token
"xy" and the mapping sending byte y to byte z, position 1 is mapped but the
(1, z) bucket is unseen; the claim makes the candidate set empty, while the
code keeps the candidate "ab". -/
theorem candidate_matcher_spec_counterexample :
    [97, 98] ∈ findCandidateMatches ⟨[[97, 98]]⟩ [120, 121] [(121, 122)] ∧
      specCandidateMatches ⟨[[97, 98]]⟩ [120, 121] [(121, 122)] = [] := by
  decide

/-! The Pattern Canonicalizer. -/

theorem idxN_append_left {u : Nat} :
    ∀ {l : List Nat}, u ∈ l → ∀ (l2 : List Nat), idxN u (l ++ l2) = idxN u l := by
  intro l
  induction l with
  | nil => intro h; simp at h
  | cons v l ih =>
    intro h l2
    by_cases hv : v = u
    · simp [idxN, hv]
    · have hm : u ∈ l := by
        rcases List.mem_cons.1 h with h2 | h2
        · exact absurd h2.symm hv
        · exact h2
      simp [idxN, hv, ih hm l2]

theorem idxN_append_self {u : Nat} :
    ∀ {l : List Nat}, u ∉ l → idxN u (l ++ [u]) = l.length := by
  intro l
  induction l with
  | nil => intro _; simp [idxN]
  | cons v l ih =>
    intro h
    have hv : ¬ v = u := fun he => h (by rw [he]; exact List.mem_cons_self _ _)
    have hu : u ∉ l := fun hm => h (List.mem_cons_of_mem _ hm)
    simp [idxN, hv, ih hu]

theorem firstsFold_extends :
    ∀ (w : Word) (seen : List Nat), ∃ ext, firstsFold seen w = seen ++ ext := by
  intro w
  induction w with
  | nil => intro seen; exact ⟨[], by simp [firstsFold]⟩
  | cons u us ih =>
    intro seen
    rcases ih (firstsStep seen u) with ⟨ext, hext⟩
    by_cases hu : u ∈ seen
    · refine ⟨ext, ?_⟩
      show firstsFold (firstsStep seen u) us = seen ++ ext
      rw [hext]
      unfold firstsStep
      rw [if_pos hu]
    · refine ⟨u :: ext, ?_⟩
      show firstsFold (firstsStep seen u) us = seen ++ u :: ext
      rw [hext]
      unfold firstsStep
      rw [if_neg hu]
      simp

theorem idxN_firstsFold_stable {u : Nat} {seen : List Nat} (h : u ∈ seen) (w : Word) :
    idxN u (firstsFold seen w) = idxN u seen := by
  rcases firstsFold_extends w seen with ⟨ext, hext⟩
  rw [hext]
  exact idxN_append_left h ext

theorem patternGo_closed :
    ∀ (w : Word) (seen : List Nat) (sm : Mapping),
      (∀ u, mlookup sm u = if u ∈ seen then some (idxN u seen) else none) →
      patternGo w seen.length sm = w.map (fun u => idxN u (firstsFold seen w)) := by
  intro w
  induction w with
  | nil => intro seen sm _; rfl
  | cons u us ih =>
    intro seen sm hrep
    by_cases hu : u ∈ seen
    · have hl : mlookup sm u = some (idxN u seen) := by rw [hrep u, if_pos hu]
      have hgo : patternGo (u :: us) seen.length sm =
          idxN u seen :: patternGo us seen.length sm := by
        simp [patternGo, hl]
      have hstep : firstsFold seen (u :: us) = firstsFold seen us := by
        show firstsFold (firstsStep seen u) us = _
        unfold firstsStep
        rw [if_pos hu]
      rw [hgo, List.map_cons, hstep]
      congr 1
      · exact (idxN_firstsFold_stable hu us).symm
      · exact ih seen sm hrep
    · have hl : mlookup sm u = none := by rw [hrep u, if_neg hu]
      have hgo : patternGo (u :: us) seen.length sm =
          seen.length :: patternGo us (seen.length + 1) (minsert sm u seen.length) := by
        simp [patternGo, hl]
      have hrep2 : ∀ v, mlookup (minsert sm u seen.length) v =
          if v ∈ seen ++ [u] then some (idxN v (seen ++ [u])) else none := by
        intro v
        rw [mlookup_minsert]
        by_cases hv : v = u
        · subst hv
          rw [if_pos rfl, if_pos (by simp), idxN_append_self hu]
        · rw [if_neg hv, hrep v]
          by_cases hvs : v ∈ seen
          · rw [if_pos hvs, if_pos (by simp [hvs]), idxN_append_left hvs]
          · rw [if_neg hvs, if_neg (by simp [hvs, hv])]
      have hlen2 : (seen ++ [u]).length = seen.length + 1 := by simp
      have hrec := ih (seen ++ [u]) (minsert sm u seen.length) hrep2
      rw [hlen2] at hrec
      have hstep : firstsFold seen (u :: us) = firstsFold (seen ++ [u]) us := by
        show firstsFold (firstsStep seen u) us = _
        unfold firstsStep
        rw [if_neg hu]
      rw [hgo, hrec, List.map_cons, hstep]
      congr 1
      rw [idxN_firstsFold_stable (by simp) us, idxN_append_self hu]

theorem patternFromStr_closed (w : Word) :
    patternFromStr w = w.map (fun u => idxN u (firsts w)) :=
  patternGo_closed w [] [] (fun u => by simp [mlookup])

theorem patternFromStr_length (w : Word) : (patternFromStr w).length = w.length := by
  rw [patternFromStr_closed]
  simp

theorem mem_firstsFold (u : Nat) :
    ∀ (w : Word) (seen : List Nat), u ∈ firstsFold seen w ↔ u ∈ seen ∨ u ∈ w := by
  intro w
  induction w with
  | nil => intro seen; simp [firstsFold]
  | cons v vs ih =>
    intro seen
    have hstep : firstsFold seen (v :: vs) = firstsFold (firstsStep seen v) vs := rfl
    rw [hstep, ih (firstsStep seen v)]
    unfold firstsStep
    by_cases hv : v ∈ seen
    · rw [if_pos hv]
      constructor
      · rintro (h | h)
        · exact Or.inl h
        · exact Or.inr (List.mem_cons_of_mem _ h)
      · rintro (h | h)
        · exact Or.inl h
        · rcases List.mem_cons.1 h with he | h2
          · exact Or.inl (he ▸ hv)
          · exact Or.inr h2
    · rw [if_neg hv]
      simp only [List.mem_append, List.mem_singleton, List.mem_cons]
      tauto

theorem mem_firsts (u : Nat) (w : Word) : u ∈ firsts w ↔ u ∈ w := by
  unfold firsts
  rw [mem_firstsFold]
  simp

theorem idxN_get {u : Nat} : ∀ {l : List Nat}, u ∈ l → l.get? (idxN u l) = some u := by
  intro l
  induction l with
  | nil => intro h; simp at h
  | cons v l ih =>
    intro h
    by_cases hv : v = u
    · simp [idxN, hv]
    · have hm : u ∈ l := by
        rcases List.mem_cons.1 h with h2 | h2
        · exact absurd h2.symm hv
        · exact h2
      simp only [idxN, if_neg hv, List.get?_cons_succ]
      exact ih hm

theorem pattern_get_iff (w : Word) (i j : Nat) (hi : i < w.length) (hj : j < w.length) :
    (patternFromStr w).get? i = (patternFromStr w).get? j ↔ w.get? i = w.get? j := by
  obtain ⟨ui, hui⟩ : ∃ ui, w.get? i = some ui := ⟨w.get ⟨i, hi⟩, List.get?_eq_get hi⟩
  obtain ⟨uj, huj⟩ : ∃ uj, w.get? j = some uj := ⟨w.get ⟨j, hj⟩, List.get?_eq_get hj⟩
  rw [patternFromStr_closed, List.get?_map, List.get?_map, hui, huj]
  constructor
  · intro h
    injection h with h2
    have h2b : idxN ui (firsts w) = idxN uj (firsts w) := h2
    have hmi : ui ∈ firsts w := (mem_firsts ui w).2 (List.get?_mem hui)
    have hmj : uj ∈ firsts w := (mem_firsts uj w).2 (List.get?_mem huj)
    have hgi := idxN_get hmi
    rw [h2b, idxN_get hmj] at hgi
    injection hgi with h3
    rw [h3]
  · intro h
    injection h with h2
    rw [h2]

theorem mem_take_iff {u : Nat} :
    ∀ (l : List Nat) (i : Nat), u ∈ l.take i ↔ ∃ k, k < i ∧ l.get? k = some u := by
  intro l
  induction l with
  | nil => intro i; simp
  | cons v vs ih =>
    intro i
    cases i with
    | zero => simp
    | succ i =>
      rw [List.take_succ_cons]
      constructor
      · intro h
        rcases List.mem_cons.1 h with he | h2
        · exact ⟨0, Nat.succ_pos i, by rw [he]; rfl⟩
        · rcases (ih i).1 h2 with ⟨k, hk, hg⟩
          exact ⟨k + 1, by omega, by simpa using hg⟩
      · rintro ⟨k, hk, hg⟩
        cases k with
        | zero =>
          have hv : v = u := by
            have : some v = some u := hg
            injection this
          rw [← hv]
          exact List.mem_cons_self _ _
        | succ k =>
          exact List.mem_cons_of_mem _ ((ih i).2 ⟨k, by omega, by simpa using hg⟩)

theorem idxN_firsts_first_occ :
    ∀ (w : Word) (seen : List Nat) (i : Nat) (u : Nat),
      w.get? i = some u → (∀ k, k < i → w.get? k ≠ some u) → u ∉ seen →
      idxN u (firstsFold seen w) = (firstsFold seen (w.take i)).length := by
  intro w
  induction w with
  | nil => intro seen i u hg _ _; simp at hg
  | cons v vs ih =>
    intro seen i u hg hfo hus
    cases i with
    | zero =>
      have hv : v = u := by
        have : some v = some u := hg
        injection this
      subst hv
      show idxN v (firstsFold (firstsStep seen v) vs) = seen.length
      unfold firstsStep
      rw [if_neg hus]
      rw [idxN_firstsFold_stable (by simp) vs, idxN_append_self hus]
    | succ i =>
      have hvne : (v :: vs).get? 0 ≠ some u := hfo 0 (Nat.succ_pos i)
      have hv : v ≠ u := fun he => hvne (by rw [he]; rfl)
      have hfo2 : ∀ k, k < i → vs.get? k ≠ some u := by
        intro k hk
        have := hfo (k + 1) (by omega)
        simpa using this
      have hg2 : vs.get? i = some u := by simpa using hg
      have hus2 : u ∉ firstsStep seen v := by
        unfold firstsStep
        by_cases hmem : v ∈ seen
        · rw [if_pos hmem]; exact hus
        · rw [if_neg hmem]
          intro hm
          rcases List.mem_append.1 hm with h1 | h1
          · exact hus h1
          · exact hv (List.mem_singleton.1 h1).symm
      show idxN u (firstsFold (firstsStep seen v) vs) =
        (firstsFold seen ((v :: vs).take (i + 1))).length
      rw [List.take_succ_cons]
      show _ = (firstsFold (firstsStep seen v) (vs.take i)).length
      exact ih (firstsStep seen v) i u hg2 hfo2 hus2

theorem firsts_take_length (w : Word) :
    ∀ (i : Nat), i ≤ w.length → (firsts (w.take i)).length = countFirstOcc w i := by
  intro i
  induction i with
  | zero => intro _; rfl
  | succ i ih =>
    intro hi
    have hi2 : i ≤ w.length := by omega
    obtain ⟨u, hu⟩ : ∃ u, w.get? i = some u :=
      ⟨w.get ⟨i, by omega⟩, List.get?_eq_get (by omega)⟩
    have htake : w.take (i + 1) = w.take i ++ [u] := by
      rw [List.take_succ]
      have : w[i]? = some u := by rw [← List.get?_eq_getElem?]; exact hu
      rw [this]
      rfl
    have hfold : firsts (w.take i ++ [u]) = firstsStep (firsts (w.take i)) u := by
      unfold firsts firstsFold
      rw [List.foldl_append]
      rfl
    have hcount : countFirstOcc w (i + 1) =
        countFirstOcc w i + (if ∀ k, k < i → w.get? k ≠ w.get? i then 1 else 0) := by
      unfold countFirstOcc
      rw [List.range_succ, List.filter_append, List.length_append]
      congr 1
      rw [List.filter_singleton]
      by_cases hfo : ∀ k, k < i → w.get? k ≠ w.get? i
      · have hd : decide (∀ k, k < i → w.get? k ≠ w.get? i) = true := decide_eq_true hfo
        rw [hd, if_pos hfo]
        rfl
      · have hd : decide (∀ k, k < i → w.get? k ≠ w.get? i) = false := decide_eq_false hfo
        rw [hd, if_neg hfo]
        rfl
    rw [htake, hfold, hcount, ← ih hi2]
    unfold firstsStep
    by_cases hmem : u ∈ firsts (w.take i)
    · rw [if_pos hmem]
      have hnfo : ¬ (∀ k, k < i → w.get? k ≠ w.get? i) := by
        have hm2 : u ∈ w.take i := (mem_firsts u _).1 hmem
        rcases (mem_take_iff w i).1 hm2 with ⟨k, hk, hg⟩
        intro hall
        exact hall k hk (by rw [hg, hu])
      rw [if_neg hnfo]
      omega
    · rw [if_neg hmem]
      have hfo : ∀ k, k < i → w.get? k ≠ w.get? i := by
        intro k hk hcon
        apply hmem
        rw [hu] at hcon
        exact (mem_firsts u _).2 ((mem_take_iff w i).2 ⟨k, hk, hcon⟩)
      rw [if_pos hfo]
      simp

theorem pattern_get_first_occ (w : Word) (i : Nat) (hi : i < w.length)
    (hfo : ∀ k, k < i → w.get? k ≠ w.get? i) :
    (patternFromStr w).get? i = some (countFirstOcc w i) := by
  obtain ⟨u, hu⟩ : ∃ u, w.get? i = some u := ⟨w.get ⟨i, hi⟩, List.get?_eq_get hi⟩
  rw [patternFromStr_closed, List.get?_map, hu]
  have hfo2 : ∀ k, k < i → w.get? k ≠ some u := by
    intro k hk
    rw [← hu]
    exact hfo k hk
  have hA := idxN_firsts_first_occ w [] i u hu hfo2 (by simp)
  have hB := firsts_take_length w i (by omega)
  show some (idxN u (firsts w)) = some (countFirstOcc w i)
  rw [show idxN u (firsts w) = idxN u (firstsFold [] w) from rfl, hA]
  rw [show (firstsFold [] (w.take i)).length = (firsts (w.take i)).length from rfl, hB]

theorem countFirstOcc_congr {w1 w2 : Word} (h : StructEquiv w1 w2) (i : Nat)
    (hi : i < w1.length) : countFirstOcc w1 i = countFirstOcc w2 i := by
  unfold countFirstOcc
  congr 1
  apply List.filter_congr
  intro j hj
  have hji : j < i := List.mem_range.1 hj
  rw [decide_eq_decide]
  constructor
  · intro hall k hk hcon
    exact hall k hk ((h.2 k j (by omega) (by omega)).2 hcon)
  · intro hall k hk hcon
    exact hall k hk ((h.2 k j (by omega) (by omega)).1 hcon)

theorem pattern_ids_eq_first_occ {w1 w2 : Word} (h : StructEquiv w1 w2) (n : Nat)
    (hn : n < w1.length) (hfo : ∀ k, k < n → w1.get? k ≠ w1.get? n) :
    (patternFromStr w1).get? n = (patternFromStr w2).get? n := by
  have hn2 : n < w2.length := h.1 ▸ hn
  have hfo2 : ∀ k, k < n → w2.get? k ≠ w2.get? n := by
    intro k hk hcon
    exact hfo k hk ((h.2 k n (by omega) hn).2 hcon)
  rw [pattern_get_first_occ w1 n hn hfo, pattern_get_first_occ w2 n hn2 hfo2,
    countFirstOcc_congr h n hn]

/-- C8: the Pattern Canonicalizer (a total function by construction) assigns
ids in first-occurrence order — the pattern of "book" is [0, 1, 1, 2] — and
two words receive identical patterns exactly when their equal-letter and
unequal-letter structure matches at every position. -/
theorem pattern_canonicalizer_correct :
    patternFromStr [98, 111, 111, 107] = [0, 1, 1, 2] ∧
      ∀ w1 w2 : Word, patternFromStr w1 = patternFromStr w2 ↔ StructEquiv w1 w2 := by
  refine ⟨by decide, ?_⟩
  intro w1 w2
  constructor
  · intro h
    have hlen : w1.length = w2.length := by
      rw [← patternFromStr_length w1, ← patternFromStr_length w2, h]
    refine ⟨hlen, ?_⟩
    intro i j hi hj
    rw [← pattern_get_iff w1 i j hi hj,
      ← pattern_get_iff w2 i j (hlen ▸ hi) (hlen ▸ hj), h]
  · rintro ⟨hlen, hstruct⟩
    apply List.ext
    intro n
    by_cases hn : n < w1.length
    · by_cases hfo : ∀ k, k < n → w1.get? k ≠ w1.get? n
      · exact pattern_ids_eq_first_occ ⟨hlen, hstruct⟩ n hn hfo
      · push_neg at hfo
        rcases hfo with ⟨kw, hkw, hkweq⟩
        have hexP : ∃ k, w1.get? k = w1.get? n := ⟨kw, hkweq⟩
        have hP0 : w1.get? (Nat.find hexP) = w1.get? n := Nat.find_spec hexP
        have hk0lt : Nat.find hexP < n :=
          Nat.lt_of_le_of_lt (Nat.find_min' hexP hkweq) hkw
        have hk0n : Nat.find hexP < w1.length := by omega
        have hfo0 : ∀ k, k < Nat.find hexP → w1.get? k ≠ w1.get? (Nat.find hexP) := by
          intro k hk hcon
          exact Nat.find_min hexP hk (by rw [hcon, hP0])
        have h1 : (patternFromStr w1).get? n = (patternFromStr w1).get? (Nat.find hexP) :=
          (pattern_get_iff w1 n (Nat.find hexP) hn hk0n).2 hP0.symm
        have h2 : (patternFromStr w2).get? n = (patternFromStr w2).get? (Nat.find hexP) :=
          (pattern_get_iff w2 n (Nat.find hexP) (hlen ▸ hn) (hlen ▸ hk0n)).2
            ((hstruct (Nat.find hexP) n hk0n hn).1 hP0).symm
        have h3 := pattern_ids_eq_first_occ ⟨hlen, hstruct⟩ (Nat.find hexP) hk0n hfo0
        rw [h1, h3, ← h2]
    · have e1 : (patternFromStr w1).get? n = none :=
        List.get?_eq_none.2 (by rw [patternFromStr_length]; omega)
      have e2 : (patternFromStr w2).get? n = none :=
        List.get?_eq_none.2 (by rw [patternFromStr_length]; omega)
      rw [e1, e2]

/-! Round trip: tokenization of a phrase built from words. -/

theorem lower_not_ws {u : Nat} (h : isLower u) : isWhitespaceB u = false := by
  obtain ⟨h1, h2⟩ := h
  unfold isWhitespaceB
  have e1 : decide (u = 32) = false := decide_eq_false (by omega)
  have e2 : decide (u = 9) = false := decide_eq_false (by omega)
  have e3 : decide (u = 10) = false := decide_eq_false (by omega)
  have e4 : decide (u = 11) = false := decide_eq_false (by omega)
  have e5 : decide (u = 12) = false := decide_eq_false (by omega)
  have e6 : decide (u = 13) = false := decide_eq_false (by omega)
  rw [e1, e2, e3, e4, e5, e6]
  rfl

theorem splitWSGo_append_nonws :
    ∀ (w : Word), (∀ u ∈ w, isWhitespaceB u = false) →
      ∀ (p : List Nat) (acc : Word),
        splitWSGo (w ++ p) acc = splitWSGo p (w.reverse ++ acc) := by
  intro w
  induction w with
  | nil => intro _ p acc; simp
  | cons u us ih =>
    intro h p acc
    have hu : isWhitespaceB u = false := h u (List.mem_cons_self _ _)
    have hstep : splitWSGo ((u :: us) ++ p) acc = splitWSGo (us ++ p) (u :: acc) := by
      simp [splitWSGo, hu]
    rw [hstep, ih (fun v hv => h v (List.mem_cons_of_mem _ hv)) p (u :: acc)]
    congr 1
    simp

theorem splitWSGo_nil_acc (acc : Word) (h : acc ≠ []) :
    splitWSGo [] acc = [acc.reverse] := by
  cases acc with
  | nil => exact absurd rfl h
  | cons a as => rfl

theorem splitWSGo_ws_cons (p : List Nat) (acc : Word) (h : acc ≠ []) :
    splitWSGo (32 :: p) acc = acc.reverse :: splitWSGo p [] := by
  cases acc with
  | nil => exact absurd rfl h
  | cons a as => rfl

theorem splitWhitespace_join :
    ∀ (ws : List Word), (∀ w ∈ ws, w ≠ [] ∧ ∀ u ∈ w, isWhitespaceB u = false) →
      splitWhitespace (joinWords ws) = ws := by
  intro ws
  induction ws with
  | nil => intro _; rfl
  | cons w ws ih =>
    intro h
    have hw := h w (List.mem_cons_self _ _)
    cases ws with
    | nil =>
      have hj : joinWords [w] = w := by simp [joinWords, List.intercalate]
      rw [hj]
      unfold splitWhitespace
      have : splitWSGo (w ++ []) [] = splitWSGo [] (w.reverse ++ []) :=
        splitWSGo_append_nonws w hw.2 [] []
      rw [List.append_nil] at this
      rw [this, List.append_nil, splitWSGo_nil_acc _ (by simp [hw.1]), List.reverse_reverse]
    | cons w2 ws2 =>
      have hj : joinWords (w :: w2 :: ws2) = w ++ (32 :: joinWords (w2 :: ws2)) := by
        show List.intercalate [32] (w :: w2 :: ws2) = _
        rw [show w ++ (32 :: joinWords (w2 :: ws2)) =
          w ++ [32] ++ joinWords (w2 :: ws2) by simp [joinWords]]
        simp [joinWords, List.intercalate, List.intersperse_cons_cons]
      unfold splitWhitespace
      rw [hj, splitWSGo_append_nonws w hw.2 _ [], List.append_nil,
        splitWSGo_ws_cons _ _ (by simp [hw.1]), List.reverse_reverse]
      have := ih (fun v hv => h v (List.mem_cons_of_mem _ hv))
      unfold splitWhitespace at this
      rw [this]

theorem map_joinWords (f : Nat → Nat) (h32 : f 32 = 32) :
    ∀ (ls : List Word), (joinWords ls).map f = joinWords (ls.map (fun w => w.map f)) := by
  intro ls
  induction ls with
  | nil => rfl
  | cons w ls ih =>
    cases ls with
    | nil => simp [joinWords, List.intercalate]
    | cons w2 ls2 =>
      have hj1 : joinWords (w :: w2 :: ls2) = w ++ [32] ++ joinWords (w2 :: ls2) := by
        simp [joinWords, List.intercalate, List.intersperse_cons_cons]
      have hj2 : joinWords ((w.map f) :: (w2.map f) :: (ls2.map (fun v => v.map f))) =
          w.map f ++ [32] ++ joinWords ((w2.map f) :: ls2.map (fun v => v.map f)) := by
        simp [joinWords, List.intercalate, List.intersperse_cons_cons]
      rw [hj1, List.map_append, List.map_append, ih]
      show _ ++ [f 32] ++ _ = _
      rw [h32]
      rw [show List.map (fun w => List.map f w) (w :: w2 :: ls2) =
        (w.map f) :: (w2.map f) :: (ls2.map (fun v => v.map f)) from rfl, hj2]
      rfl

/-! Round trip: pattern preservation under an injective letter permutation. -/

theorem mlookup_map_pi (f : Nat → Nat)
    (hfi : ∀ u v, isLower u → isLower v → f u = f v → u = v)
    (u : Nat) (hu : isLower u) :
    ∀ (sm : Mapping), (∀ p ∈ sm, isLower p.1) →
      mlookup (sm.map (fun p => (f p.1, p.2))) (f u) = mlookup sm u := by
  intro sm
  induction sm with
  | nil => intro _; rfl
  | cons p sm ih =>
    intro hsm
    obtain ⟨k, v⟩ := p
    have hk : isLower k := hsm (k, v) (List.mem_cons_self _ _)
    by_cases he : u = k
    · subst he
      simp [mlookup]
    · have hne : ¬ f u = f k := fun hc => he (hfi u k hu hk hc)
      simp only [List.map_cons, mlookup, if_neg he, if_neg hne]
      exact ih (fun q hq => hsm q (List.mem_cons_of_mem _ hq))

theorem minsert_map_pi (f : Nat → Nat)
    (hfi : ∀ u v, isLower u → isLower v → f u = f v → u = v)
    (u : Nat) (hu : isLower u) (n : Nat) :
    ∀ (sm : Mapping), (∀ p ∈ sm, isLower p.1) →
      minsert (sm.map (fun p => (f p.1, p.2))) (f u) n =
        (minsert sm u n).map (fun p => (f p.1, p.2)) := by
  intro sm
  induction sm with
  | nil => intro _; rfl
  | cons p sm ih =>
    intro hsm
    obtain ⟨k, v⟩ := p
    have hk : isLower k := hsm (k, v) (List.mem_cons_self _ _)
    by_cases he : u = k
    · subst he
      simp [minsert]
    · have hne : ¬ f u = f k := fun hc => he (hfi u k hu hk hc)
      simp only [List.map_cons, minsert, if_neg he, if_neg hne]
      rw [ih (fun q hq => hsm q (List.mem_cons_of_mem _ hq))]

theorem minsert_keys_lower {sm : Mapping} {u : Nat} (hu : isLower u) (n : Nat)
    (h : ∀ p ∈ sm, isLower p.1) : ∀ p ∈ minsert sm u n, isLower p.1 := by
  induction sm with
  | nil =>
    intro p hp
    rcases List.mem_singleton.1 hp with rfl
    exact hu
  | cons q sm ih =>
    obtain ⟨k, v⟩ := q
    intro p hp
    by_cases he : u = k
    · subst he
      rw [show minsert ((u, v) :: sm) u n = (u, n) :: sm by simp [minsert]] at hp
      rcases List.mem_cons.1 hp with hh | hh
      · rw [hh]; exact hu
      · exact h p (List.mem_cons_of_mem _ hh)
    · rw [show minsert ((k, v) :: sm) u n = (k, v) :: minsert sm u n by
        simp [minsert, he]] at hp
      rcases List.mem_cons.1 hp with hh | hh
      · rw [hh]; exact h (k, v) (List.mem_cons_self _ _)
      · exact ih (fun q hq => h q (List.mem_cons_of_mem _ hq)) p hh

theorem patternGo_map_pi (f : Nat → Nat)
    (hfi : ∀ u v, isLower u → isLower v → f u = f v → u = v) :
    ∀ (w : Word) (n : Nat) (sm : Mapping),
      (∀ u ∈ w, isLower u) → (∀ p ∈ sm, isLower p.1) →
      patternGo (w.map f) n (sm.map (fun p => (f p.1, p.2))) = patternGo w n sm := by
  intro w
  induction w with
  | nil => intro n sm _ _; rfl
  | cons u us ih =>
    intro n sm hw hsm
    have hu : isLower u := hw u (List.mem_cons_self _ _)
    have hus : ∀ v ∈ us, isLower v := fun v hv => hw v (List.mem_cons_of_mem _ hv)
    have hlk := mlookup_map_pi f hfi u hu sm hsm
    cases hsm0 : mlookup sm u with
    | some id =>
      rw [hsm0] at hlk
      have h1 : patternGo ((u :: us).map f) n (sm.map (fun p => (f p.1, p.2))) =
          id :: patternGo (us.map f) n (sm.map (fun p => (f p.1, p.2))) := by
        simp only [List.map_cons, patternGo, hlk]
      have h2 : patternGo (u :: us) n sm = id :: patternGo us n sm := by
        simp only [patternGo, hsm0]
      rw [h1, h2, ih n sm hus hsm]
    | none =>
      rw [hsm0] at hlk
      have h1 : patternGo ((u :: us).map f) n (sm.map (fun p => (f p.1, p.2))) =
          n :: patternGo (us.map f) (n + 1)
            (minsert (sm.map (fun p => (f p.1, p.2))) (f u) n) := by
        simp only [List.map_cons, patternGo, hlk]
      have h2 : patternGo (u :: us) n sm = n :: patternGo us (n + 1) (minsert sm u n) := by
        simp only [patternGo, hsm0]
      rw [h1, h2, minsert_map_pi f hfi u hu n sm hsm,
        ih (n + 1) (minsert sm u n) hus (minsert_keys_lower hu n hsm)]

theorem pattern_map_pi (f : Nat → Nat)
    (hfi : ∀ u v, isLower u → isLower v → f u = f v → u = v)
    (w : Word) (hw : ∀ u ∈ w, isLower u) :
    patternFromStr (w.map f) = patternFromStr w :=
  patternGo_map_pi f hfi w 0 [] hw (fun p hp => absurd hp (List.not_mem_nil p))

/-! Round trip: the true word survives candidate filtering and mapping
extension, so the search finds the decrypting mapping. -/

theorem zip_map_self (f : Nat → Nat) :
    ∀ (w : Word), (w.map f).zip w = w.map (fun b => (f b, b)) := by
  intro w
  induction w with
  | nil => rfl
  | cons u us ih => simp [ih]

theorem true_word_in_candidates (dict : List Word) (f : Nat → Nat)
    (hfi : ∀ u v, isLower u → isLower v → f u = f v → u = v)
    (w : Word) (hwdict : w ∈ dict) (hw : ∀ u ∈ w, isLower u)
    (m : Mapping) (hm : GoodMap f m) :
    w ∈ findCandidateMatches ⟨dict⟩ (w.map f) m := by
  rw [findCandidate_mem_iff]
  constructor
  · unfold wordsByPattern
    rw [List.mem_dedup, List.mem_filter]
    refine ⟨hwdict, decide_eq_true ?_⟩
    exact (pattern_map_pi f hfi w hw).symm
  · intro idx u hg mc bucket hmc hb
    rw [List.get?_map] at hg
    cases hwb : w.get? idx with
    | none => rw [hwb] at hg; exact Option.noConfusion hg
    | some b =>
      rw [hwb] at hg
      have hg2 : f b = u := by
        have : some (f b) = some u := hg
        injection this
      rcases hm u mc hmc with ⟨hfmc, hlmc⟩
      have hbl : isLower b := hw b (List.get?_mem hwb)
      have hmcb : mc = b := hfi mc b hlmc hbl (by rw [hfmc, ← hg2])
      unfold wordsByCharAndIndex at hb
      have hwin : w ∈ (dict.filter (fun d => decide (d.get? idx = some mc))).dedup := by
        rw [List.mem_dedup, List.mem_filter]
        exact ⟨hwdict, decide_eq_true (by rw [hwb, hmcb])⟩
      cases hd : (dict.filter (fun d => decide (d.get? idx = some mc))).dedup with
      | nil => rw [hd] at hwin; simp at hwin
      | cons x xs =>
        rw [hd] at hb hwin
        injection hb with hb2
        rw [← hb2]
        exact hwin

theorem true_word_extend (f : Nat → Nat)
    (hfi : ∀ u v, isLower u → isLower v → f u = f v → u = v)
    (w : Word) (hw : ∀ u ∈ w, isLower u) (m : Mapping) (hm : GoodMap f m) :
    ∃ m2, tryExtendMapping w (w.map f) m = some m2 ∧ GoodMap f m2 ∧
      (∀ k v, mlookup m k = some v → mlookup m2 k = some v) ∧
      (∀ u ∈ w, mlookup m2 (f u) = some u) := by
  have hzip : (w.map f).zip w = w.map (fun b => (f b, b)) := zip_map_self f w
  have hmempairs : ∀ p : Nat × Nat, p ∈ (w.map f).zip w → p.2 ∈ w ∧ f p.2 = p.1 := by
    intro p hp
    rw [hzip] at hp
    rcases List.mem_map.1 hp with ⟨b, hb, hpb⟩
    rw [← hpb]
    exact ⟨hb, rfl⟩
  have c1 : ∀ p q : Nat × Nat, p ∈ (w.map f).zip w → q ∈ (w.map f).zip w →
      p.1 = q.1 → p.2 = q.2 := by
    intro p q hp hq hpq
    rcases hmempairs p hp with ⟨hpw, hpf⟩
    rcases hmempairs q hq with ⟨hqw, hqf⟩
    exact hfi p.2 q.2 (hw _ hpw) (hw _ hqw) (by rw [hpf, hqf, hpq])
  have c2 : ∀ p : Nat × Nat, p ∈ (w.map f).zip w →
      ∀ v, mlookup m p.1 = some v → v = p.2 := by
    intro p hp v hv
    rcases hmempairs p hp with ⟨hpw, hpf⟩
    rcases hm p.1 v hv with ⟨hfv, hlv⟩
    exact hfi v p.2 hlv (hw _ hpw) (by rw [hfv, hpf])
  have hmerged : ∀ k v, mergedLookup ((w.map f).zip w) m k = some v →
      f v = k ∧ isLower v := by
    intro k v hv
    unfold mergedLookup at hv
    cases hp : mlookup ((w.map f).zip w) k with
    | some b =>
      rw [hp] at hv
      injection hv with hv2
      have hmem := mem_of_mlookup hp
      rcases hmempairs (k, b) hmem with ⟨hbw, hbf⟩
      rw [← hv2]
      exact ⟨hbf, hw b hbw⟩
    | none =>
      rw [hp] at hv
      exact hm k v hv
  have c3 : ∀ k1 k2 v, mergedLookup ((w.map f).zip w) m k1 = some v →
      mergedLookup ((w.map f).zip w) m k2 = some v → k1 = k2 := by
    intro k1 k2 v h1 h2
    rcases hmerged k1 v h1 with ⟨hf1, _⟩
    rcases hmerged k2 v h2 with ⟨hf2, _⟩
    rw [← hf1, ← hf2]
  have hissome := (tryExtend_spec w (w.map f) m).1.2 ⟨c1, c2, c3⟩
  obtain ⟨m2, hm2⟩ := Option.isSome_iff_exists.1 hissome
  have hlk := tryExtend_lookup hm2
  refine ⟨m2, hm2, ?_, ?_, ?_⟩
  · intro k v hv
    rw [hlk k] at hv
    exact hmerged k v hv
  · exact fun k v hv => (tryExtend_spec w (w.map f) m).2 m2 hm2 k v hv
  · intro u hu
    rw [hlk (f u)]
    unfold mergedLookup
    have hpmem : ((f u, u) : Nat × Nat) ∈ (w.map f).zip w := by
      rw [hzip]
      exact List.mem_map_of_mem _ hu
    have hsome : (mlookup ((w.map f).zip w) (f u)).isSome := by
      rw [← mem_mkeys_iff_isSome]
      exact List.mem_map_of_mem Prod.fst hpmem
    cases hp : mlookup ((w.map f).zip w) (f u) with
    | none => rw [hp] at hsome; simp at hsome
    | some b =>
      have hmem := mem_of_mlookup hp
      rcases hmempairs (f u, b) hmem with ⟨hbw, hbf⟩
      have hbu : b = u := hfi b u (hw b hbw) (hw u hu) hbf
      rw [hbu]

theorem guess_complete (dict : List Word) (f : Nat → Nat)
    (hfi : ∀ u v, isLower u → isLower v → f u = f v → u = v) :
    ∀ (fuel : Nat) (tokens : List Word) (m : Mapping),
      tokens.length ≤ fuel →
      (∀ t ∈ tokens, ∃ w, w ∈ dict ∧ (∀ u ∈ w, isLower u) ∧ t = w.map f) →
      GoodMap f m →
      ∃ m2, m2 ∈ guessO ⟨dict⟩ idOrder fuel m tokens ∧ GoodMap f m2 ∧
        (∀ k v, mlookup m k = some v → mlookup m2 k = some v) ∧
        (∀ t ∈ tokens, ∀ u2 ∈ t, (mlookup m2 u2).isSome) := by
  intro fuel
  induction fuel with
  | zero =>
    intro tokens m hlen htok hm
    have hnil : tokens = [] := List.length_eq_zero.1 (Nat.le_zero.1 hlen)
    subst hnil
    rw [guessO_nil_tokens]
    exact ⟨m, List.mem_singleton_self m, hm, fun _ _ hv => hv, by simp⟩
  | succ fuel ih =>
    intro tokens m hlen htok hm
    cases hL : (sortTokens ⟨dict⟩ m tokens).getLast? with
    | none =>
      rw [guessO_none_eq _ _ _ _ _ hL]
      have hnil : tokens = [] := by
        have hs : sortTokens ⟨dict⟩ m tokens = [] := List.getLast?_eq_none.1 hL
        have := (sortTokens_perm ⟨dict⟩ m tokens).length_eq
        rw [hs] at this
        exact List.length_eq_zero.1 this.symm
      subst hnil
      exact ⟨m, List.mem_singleton_self m, hm, fun _ _ hv => hv, by simp⟩
    | some chosen =>
      have hchosen_tokens : chosen ∈ tokens :=
        (sortTokens_perm _ _ _).mem_iff.1 (mem_of_getLast? hL)
      rcases htok chosen hchosen_tokens with ⟨wc, hwc_dict, hwc_lower, hchosen_eq⟩
      have hcand : wc ∈ findCandidateMatches ⟨dict⟩ chosen m := by
        rw [hchosen_eq]
        exact true_word_in_candidates dict f hfi wc hwc_dict hwc_lower m hm
      rcases true_word_extend f hfi wc hwc_lower m hm with ⟨m1, hext, hgood1, hpres1, hcov1⟩
      rw [← hchosen_eq] at hext
      have hsne : sortTokens ⟨dict⟩ m tokens ≠ [] := by
        intro hz; rw [hz] at hL; exact Option.noConfusion hL
      have hpos : 0 < tokens.length := by
        rcases Nat.eq_zero_or_pos tokens.length with h0 | h0
        · exact absurd (by rw [List.length_eq_zero.1 h0]; rfl) hsne
        · exact h0
      have hlen2 : (sortTokens ⟨dict⟩ m tokens).dropLast.length ≤ fuel := by
        rw [List.length_dropLast, (sortTokens_perm _ _ _).length_eq]
        omega
      have hrest_tok : ∀ t ∈ (sortTokens ⟨dict⟩ m tokens).dropLast,
          ∃ w, w ∈ dict ∧ (∀ u ∈ w, isLower u) ∧ t = w.map f := by
        intro t ht
        exact htok t ((sortTokens_perm _ _ _).mem_iff.1 (List.dropLast_subset _ ht))
      rcases ih ((sortTokens ⟨dict⟩ m tokens).dropLast) m1 hlen2 hrest_tok hgood1 with
        ⟨m2, hm2mem, hgood2, hpres2, hcov2⟩
      refine ⟨m2, ?_, hgood2, fun k v hv => hpres2 k v (hpres1 k v hv), ?_⟩
      · rw [guessO_succ_eq ⟨dict⟩ idOrder fuel m tokens chosen hL]
        apply List.mem_flatMap.2
        refine ⟨m1, ?_, hm2mem⟩
        show m1 ∈ (findCandidateMatches ⟨dict⟩ chosen m).filterMap
          (fun w => tryExtendMapping w chosen m)
        exact List.mem_filterMap.2 ⟨wc, hcand, hext⟩
      · intro t ht u2 hu2
        have htsort : t ∈ sortTokens ⟨dict⟩ m tokens := (sortTokens_perm _ _ _).mem_iff.2 ht
        have hsplit := List.dropLast_append_getLast hsne
        have hchosen2 : (sortTokens ⟨dict⟩ m tokens).getLast hsne = chosen := by
          have hgl := List.getLast?_eq_getLast (sortTokens ⟨dict⟩ m tokens) hsne
          rw [hL] at hgl
          injection hgl with h2
          exact h2.symm
        rw [← hsplit] at htsort
        rcases List.mem_append.1 htsort with h1 | h1
        · exact hcov2 t h1 u2 hu2
        · have ht2 : t = chosen := by
            rw [hchosen2] at h1
            exact List.mem_singleton.1 h1
          rw [ht2, hchosen_eq] at hu2
          rcases List.mem_map.1 hu2 with ⟨b, hb, hfb⟩
          have hm1b := hcov1 b hb
          have hsome2 := hpres2 (f b) b hm1b
          rw [hfb] at hsome2
          rw [hsome2]
          rfl

/-- C1: for every phrase composed of dictionary words and every injective
permutation of the lowercase alphabet, solving the encrypted phrase against
a dictionary containing those words returns a sequence that contains the
original plaintext phrase. -/
theorem round_trip (dict ws : List Word) (f : Nat → Nat)
    (hws : ∀ w ∈ ws, w ∈ dict ∧ w ≠ [] ∧ ∀ u ∈ w, isLower u)
    (hfl : ∀ u, isLower u → isLower (f u))
    (hfi : ∀ u v, isLower u → isLower v → f u = f v → u = v) :
    joinWords ws ∈ solve ⟨dict⟩ (joinWords (ws.map (fun w => w.map f))) := by
  have hsplit : splitWhitespace (joinWords (ws.map (fun w => w.map f))) =
      ws.map (fun w => w.map f) := by
    apply splitWhitespace_join
    intro t ht
    rcases List.mem_map.1 ht with ⟨w, hw, hwt⟩
    rcases hws w hw with ⟨_, hne, hlow⟩
    constructor
    · rw [← hwt]
      intro hz
      exact hne (List.map_eq_nil.1 hz)
    · intro u hu
      rw [← hwt] at hu
      rcases List.mem_map.1 hu with ⟨b, hb, hbf⟩
      rw [← hbf]
      exact lower_not_ws (hfl b (hlow b hb))
  have htok : ∀ t ∈ solveTokens (joinWords (ws.map (fun w => w.map f))),
      ∃ w, w ∈ dict ∧ (∀ u ∈ w, isLower u) ∧ t = w.map f := by
    intro t ht
    unfold solveTokens at ht
    rw [hsplit, List.mem_dedup] at ht
    rcases List.mem_map.1 ht with ⟨w, hw, hwt⟩
    rcases hws w hw with ⟨hdict, _, hlow⟩
    exact ⟨w, hdict, hlow, hwt.symm⟩
  rcases guess_complete dict f hfi
    (solveTokens (joinWords (ws.map (fun w => w.map f)))).length
    (solveTokens (joinWords (ws.map (fun w => w.map f)))) [] (Nat.le_refl _) htok
    (fun k v hv => by simp [mlookup] at hv) with ⟨m2, hmem, hgood, _, hcov⟩
  unfold solve solveO solveMappingsO
  apply List.mem_map.2
  refine ⟨m2, hmem, ?_⟩
  have h32 : (mlookup m2 32).getD 32 = 32 := by
    cases hv : mlookup m2 32 with
    | none => simp [hv]
    | some v =>
      rcases hgood 32 v hv with ⟨hfv, hlv⟩
      have hl32 := hfl v hlv
      rw [hfv] at hl32
      exact absurd hl32 (by unfold isLower; omega)
  unfold renderMapping
  rw [map_joinWords (fun u => (mlookup m2 u).getD u) h32]
  congr 1
  rw [List.map_map]
  have hpointwise : ∀ w ∈ ws,
      ((fun v => v.map (fun u => (mlookup m2 u).getD u)) ∘ (fun w => w.map f)) w = id w := by
    intro w hw
    show (w.map f).map (fun u => (mlookup m2 u).getD u) = w
    rw [List.map_map]
    have hpt : ∀ b ∈ w, ((fun u => (mlookup m2 u).getD u) ∘ f) b = id b := by
      intro b hb
      show (mlookup m2 (f b)).getD (f b) = b
      have htmem : w.map f ∈ solveTokens (joinWords (ws.map (fun w => w.map f))) := by
        unfold solveTokens
        rw [hsplit, List.mem_dedup]
        exact List.mem_map_of_mem _ hw
      have hbs := hcov (w.map f) htmem (f b) (List.mem_map_of_mem f hb)
      obtain ⟨v, hv⟩ := Option.isSome_iff_exists.1 hbs
      rcases hgood (f b) v hv with ⟨hfv, hlv⟩
      have hlb : isLower b := (hws w hw).2.2 b hb
      have hvb : v = b := hfi v b hlv hlb hfv
      rw [hv, hvb]
      rfl
    rw [List.map_congr_left hpt, List.map_id]
  rw [List.map_congr_left hpointwise, List.map_id]

theorem c1_witness :
    joinWords [[97, 98]] ∈ solve ⟨[[97, 98]]⟩
      (joinWords (([[97, 98]] : List Word).map
        (fun w => w.map (fun u => if u = 97 then 98 else if u = 98 then 97 else u)))) :=
  round_trip [[97, 98]] [[97, 98]]
    (fun u => if u = 97 then 98 else if u = 98 then 97 else u)
    (by decide)
    (fun u hu => by unfold isLower at hu ⊢; dsimp only; split_ifs <;> omega)
    (fun u v hu hv h => by
      unfold isLower at hu hv
      dsimp only at h
      split_ifs at h <;> omega)

end Cryptid
